import Mathlib

/-!
# Verification of the Möbius-strip numerical pipeline

Shallow embedding of `mobius_strip.py` over the real numbers.  The
Python code builds an `n × n` parameter grid with `np.meshgrid` of two
`np.linspace` calls, maps it through the Möbius parametric equations,
and then

* `surface_area` applies `np.gradient` (unit index spacing, central
  differences in the interior, one-sided at the two boundaries) to the
  three coordinate grids along both axes, forms the cross product of
  the two resulting tangent fields, and sums its pointwise magnitude
  scaled by `du * dv`;
* `edge_length` independently resamples the boundary curve at
  `v = w/2` over `n` angle samples in `[0, 2π]` and returns twice the
  sum of consecutive chord lengths.

Each definition mirrors one expression of the source file; theorems
about the claims of the specification follow the definitions.
-/

set_option linter.unusedVariables false

open Real Filter Finset

namespace Mobius

/-- One entry of `np.linspace a b m`: index `k` holds `a + (b-a)*k/(m-1)`.
(For `m = 1` numpy returns `[a]`; with Lean's `x/0 = 0` convention the
formula also yields `a` there.) -/
noncomputable def linspace (a b : ℝ) (m k : ℕ) : ℝ := a + (b - a) * k / ((m : ℝ) - 1)

/-- `u[i][j]` from `np.meshgrid(np.linspace(0, 2π, n), np.linspace(-w/2, w/2, n))`:
with the default `indexing='xy'` the first output repeats the angle
samples along every row, so the entry depends only on the column `j`. -/
noncomputable def ugrid (n i j : ℕ) : ℝ := linspace 0 (2 * π) n j

/-- `v[i][j]` from the same `np.meshgrid` call: the width samples are
repeated along every column, so the entry depends only on the row `i`. -/
noncomputable def vgrid (w : ℝ) (n i j : ℕ) : ℝ := linspace (-(w / 2)) (w / 2) n i

/-- `x = (R + v*cos(u/2))*cos(u)` (MobiusStrip._compute_coordinates). -/
noncomputable def xgrid (R w : ℝ) (n i j : ℕ) : ℝ :=
  (R + vgrid w n i j * Real.cos (ugrid n i j / 2)) * Real.cos (ugrid n i j)

/-- `y = (R + v*cos(u/2))*sin(u)` (MobiusStrip._compute_coordinates). -/
noncomputable def ygrid (R w : ℝ) (n i j : ℕ) : ℝ :=
  (R + vgrid w n i j * Real.cos (ugrid n i j / 2)) * Real.sin (ugrid n i j)

/-- `z = v*sin(u/2)` (MobiusStrip._compute_coordinates). -/
noncomputable def zgrid (R w : ℝ) (n i j : ℕ) : ℝ :=
  vgrid w n i j * Real.sin (ugrid n i j / 2)

/-- `np.gradient` of a 1-D slice of length `m` with unit spacing and the
default `edge_order=1`: one-sided difference at the two ends, central
difference of half weight in the interior. -/
noncomputable def npGradient1 (g : ℕ → ℝ) (m k : ℕ) : ℝ :=
  if k = 0 then g 1 - g 0
  else if k = m - 1 then g (m - 1) - g (m - 2)
  else (g (k + 1) - g (k - 1)) / 2

/-- `np.gradient(f, axis=1)`: differentiate along the column index. -/
noncomputable def gradAxis1 (f : ℕ → ℕ → ℝ) (m i j : ℕ) : ℝ :=
  npGradient1 (fun k => f i k) m j

/-- `np.gradient(f, axis=0)`: differentiate along the row index. -/
noncomputable def gradAxis0 (f : ℕ → ℕ → ℝ) (m i j : ℕ) : ℝ :=
  npGradient1 (fun k => f k j) m i

/-- One entry of `dA = sqrt(cross_x**2 + cross_y**2 + cross_z**2)` where
`cross = (yu*zv - zu*yv, zu*xv - xu*zv, xu*yv - yu*xv)` and the
`u`-subscript gradients run along axis 1, the `v`-subscript gradients
along axis 0 (lines 44-55 of the source). -/
noncomputable def dAOf (x y z : ℕ → ℕ → ℝ) (m i j : ℕ) : ℝ :=
  Real.sqrt
    ((gradAxis1 y m i j * gradAxis0 z m i j - gradAxis1 z m i j * gradAxis0 y m i j) ^ 2
      + (gradAxis1 z m i j * gradAxis0 x m i j - gradAxis1 x m i j * gradAxis0 z m i j) ^ 2
      + (gradAxis1 x m i j * gradAxis0 y m i j - gradAxis1 y m i j * gradAxis0 x m i j) ^ 2)

/-- `du = 2*np.pi/(self.n - 1)`. -/
noncomputable def du (n : ℕ) : ℝ := 2 * π / ((n : ℝ) - 1)

/-- `dv = self.w/(self.n - 1)`. -/
noncomputable def dv (w : ℝ) (n : ℕ) : ℝ := w / ((n : ℝ) - 1)

/-- `np.sum(dA) * du * dv` computed from given coordinate arrays, as the
method body does from the cached fields `self.x, self.y, self.z`. -/
noncomputable def surfaceAreaOf (x y z : ℕ → ℕ → ℝ) (w : ℝ) (n : ℕ) : ℝ :=
  (∑ i ∈ range n, ∑ j ∈ range n, dAOf x y z n i j) * du n * dv w n

/-- `MobiusStrip.surface_area` for an instance constructed with `(R, w, n)`. -/
noncomputable def surface_area (R w : ℝ) (n : ℕ) : ℝ :=
  surfaceAreaOf (xgrid R w n) (ygrid R w n) (zgrid R w n) w n

/-- The angle samples `u = np.linspace(0, 2*np.pi, self.n)` that
`edge_length` generates for itself. -/
noncomputable def eu (n j : ℕ) : ℝ := linspace 0 (2 * π) n j

/-- `x`-coordinate of the `j`-th boundary sample of `edge_length`
(`v = self.w/2` fixed). -/
noncomputable def ex (R w : ℝ) (n j : ℕ) : ℝ :=
  (R + w / 2 * Real.cos (eu n j / 2)) * Real.cos (eu n j)

/-- `y`-coordinate of the `j`-th boundary sample of `edge_length`. -/
noncomputable def ey (R w : ℝ) (n j : ℕ) : ℝ :=
  (R + w / 2 * Real.cos (eu n j / 2)) * Real.sin (eu n j)

/-- `z`-coordinate of the `j`-th boundary sample of `edge_length`. -/
noncomputable def ez (R w : ℝ) (n j : ℕ) : ℝ :=
  w / 2 * Real.sin (eu n j / 2)

/-- `ds[j] = sqrt(dx[j]**2 + dy[j]**2 + dz[j]**2)` built from the
`np.diff` first differences of the boundary samples. -/
noncomputable def ds (R w : ℝ) (n j : ℕ) : ℝ :=
  Real.sqrt ((ex R w n (j + 1) - ex R w n j) ^ 2 + (ey R w n (j + 1) - ey R w n j) ^ 2
    + (ez R w n (j + 1) - ez R w n j) ^ 2)

/-- `MobiusStrip.edge_length`: `2 * np.sum(ds)`; `np.diff` produces
`n - 1` chords, so the sum runs over `j = 0 .. n-2`. -/
noncomputable def edge_length (R w : ℝ) (n : ℕ) : ℝ :=
  2 * ∑ j ∈ range (n - 1), ds R w n j

/-- The state of a `MobiusStrip` instance: the construction parameters
together with the parameter and coordinate grids cached by `__init__`. -/
structure Strip where
  R : ℝ
  w : ℝ
  n : ℕ
  u : ℕ → ℕ → ℝ
  v : ℕ → ℕ → ℝ
  x : ℕ → ℕ → ℝ
  y : ℕ → ℕ → ℝ
  z : ℕ → ℕ → ℝ

/-- `MobiusStrip.__init__(R, w, n)`: store the parameters, build the
meshgrid, and cache the coordinate grids computed from it. -/
noncomputable def mkStrip (R w : ℝ) (n : ℕ) : Strip :=
  ⟨R, w, n, ugrid n, vgrid w n, xgrid R w n, ygrid R w n, zgrid R w n⟩

/-- Calling `surface_area()` on an instance: the body only reads
`self.x, self.y, self.z, self.w, self.n` and contains no assignment to
`self`, so the embedded method returns the computed value together with
the unchanged state. -/
noncomputable def Strip.surfaceAreaCall (s : Strip) : ℝ × Strip :=
  (surfaceAreaOf s.x s.y s.z s.w s.n, s)

/-- Calling `edge_length()` on an instance: the body only reads
`self.R, self.w, self.n` and contains no assignment to `self`. -/
noncomputable def Strip.edgeLengthCall (s : Strip) : ℝ × Strip :=
  (edge_length s.R s.w s.n, s)

/-- Specification-side finite difference of §4.3, written from the
spec's words: central differences in the interior, one-sided at the
boundaries, in index space, along the column axis (`u`-direction). -/
noncomputable def specDerivU (f : ℕ → ℕ → ℝ) (n i j : ℕ) : ℝ :=
  if j = 0 then f i 1 - f i 0
  else if j = n - 1 then f i (n - 1) - f i (n - 2)
  else (f i (j + 1) - f i (j - 1)) / 2

/-- Specification-side finite difference along the row axis
(`v`-direction). -/
noncomputable def specDerivV (f : ℕ → ℕ → ℝ) (n i j : ℕ) : ℝ :=
  if i = 0 then f 1 j - f 0 j
  else if i = n - 1 then f (n - 1) j - f (n - 2) j
  else (f (i + 1) j - f (i - 1) j) / 2

/-- Specification-side surface area of §4.3: magnitude of the cross
product of the two tangent fields, summed over the grid and multiplied
by the cell area `du * dv` with `du = 2π/(n-1)` and `dv = w/(n-1)`. -/
noncomputable def spec_surface_area (R w : ℝ) (n : ℕ) : ℝ :=
  (∑ i ∈ range n, ∑ j ∈ range n,
    Real.sqrt
      ((specDerivU (ygrid R w n) n i j * specDerivV (zgrid R w n) n i j
          - specDerivU (zgrid R w n) n i j * specDerivV (ygrid R w n) n i j) ^ 2
        + (specDerivU (zgrid R w n) n i j * specDerivV (xgrid R w n) n i j
          - specDerivU (xgrid R w n) n i j * specDerivV (zgrid R w n) n i j) ^ 2
        + (specDerivU (xgrid R w n) n i j * specDerivV (ygrid R w n) n i j
          - specDerivU (ygrid R w n) n i j * specDerivV (xgrid R w n) n i j) ^ 2))
    * (2 * π / ((n : ℝ) - 1)) * (w / ((n : ℝ) - 1))

/-- Specification-side boundary point of §4.4: the Möbius embedding
evaluated at fixed `v = w/2` on the `j`-th of `n` angle samples
linearly spaced over `[0, 2π]` inclusive. -/
noncomputable def specBoundaryPoint (R w : ℝ) (n j : ℕ) : ℝ × ℝ × ℝ :=
  ((R + w / 2 * Real.cos (linspace 0 (2 * π) n j / 2)) * Real.cos (linspace 0 (2 * π) n j),
   (R + w / 2 * Real.cos (linspace 0 (2 * π) n j / 2)) * Real.sin (linspace 0 (2 * π) n j),
   w / 2 * Real.sin (linspace 0 (2 * π) n j / 2))

/-- Specification-side edge length of §4.4: twice the sum over
`i = 0 .. n-2` of the chord lengths between consecutive boundary
points. -/
noncomputable def spec_edge_length (R w : ℝ) (n : ℕ) : ℝ :=
  2 * ∑ i ∈ range (n - 1),
    Real.sqrt (((specBoundaryPoint R w n (i + 1)).1 - (specBoundaryPoint R w n i).1) ^ 2
      + ((specBoundaryPoint R w n (i + 1)).2.1 - (specBoundaryPoint R w n i).2.1) ^ 2
      + ((specBoundaryPoint R w n (i + 1)).2.2 - (specBoundaryPoint R w n i).2.2) ^ 2)

/-! ### Closed forms for the grids -/

lemma ugrid_eq (n i j : ℕ) : ugrid n i j = 2 * π * j / ((n : ℝ) - 1) := by
  unfold ugrid linspace; ring

lemma eu_eq (n j : ℕ) : eu n j = 2 * π * j / ((n : ℝ) - 1) := by
  unfold eu linspace; ring

lemma vgrid_eq (w : ℝ) (n i j : ℕ) : vgrid w n i j = -(w / 2) + w * i / ((n : ℝ) - 1) := by
  unfold vgrid linspace; ring

lemma eu_succ_sub (n j : ℕ) : eu n (j + 1) - eu n j = 2 * π / ((n : ℝ) - 1) := by
  rw [eu_eq, eu_eq]; push_cast; ring

lemma ugrid_succ_sub (n i j : ℕ) :
    ugrid n i (j + 1) - ugrid n i j = 2 * π / ((n : ℝ) - 1) := by
  rw [ugrid_eq, ugrid_eq]; push_cast; ring

lemma vgrid_succ_sub (w : ℝ) (n i j : ℕ) :
    vgrid w n (i + 1) j - vgrid w n i j = dv w n := by
  rw [vgrid_eq, vgrid_eq]; unfold dv; push_cast; ring

lemma nsub_one_cast {n : ℕ} (hn : 2 ≤ n) : ((n - 1 : ℕ) : ℝ) = (n : ℝ) - 1 := by
  have h1 : 1 ≤ n := by omega
  rw [Nat.cast_sub h1, Nat.cast_one]

lemma nsub_one_pos {n : ℕ} (hn : 2 ≤ n) : (0 : ℝ) < (n : ℝ) - 1 := by
  have h2 : (2 : ℝ) ≤ (n : ℝ) := by exact_mod_cast hn
  linarith

lemma vgrid_last {w : ℝ} {n : ℕ} (hn : 2 ≤ n) (j : ℕ) : vgrid w n (n - 1) j = w / 2 := by
  rw [vgrid_eq, nsub_one_cast hn]
  have h0 : ((n : ℝ) - 1) ≠ 0 := ne_of_gt (nsub_one_pos hn)
  field_simp
  ring

/-! ### Claim theorems: structural claims -/

/-- Claim C3: `surface_area()` returns exactly `(Σ dA[i][j]) * du * dv`
with `du = 2π/(n-1)`, `dv = w/(n-1)`, where `dA` is the magnitude of
the cross product of the two tangent fields obtained by the standard
gradient scheme in index space, the `u`-derivative along the column
axis and the `v`-derivative along the row axis.  The source computation
and the specification formula agree definitionally (for every `n`, in
particular every `n ≥ 2`). -/
theorem c3_surface_area_formula (R w : ℝ) (n : ℕ) :
    surface_area R w n = spec_surface_area R w n := rfl

/-- Claim C4: each cached coordinate grid entry satisfies the closed
forms `x[i][j] = (R + v_i cos(u_j/2)) cos u_j`,
`y[i][j] = (R + v_i cos(u_j/2)) sin u_j`, `z[i][j] = v_i sin(u_j/2)`
with `u_j = 2πj/(n-1)` (independent of the row `i`) and
`v_i = -w/2 + i·w/(n-1)` (independent of the column `j`). -/
theorem c4_grid_closed_form (R w : ℝ) (n i j : ℕ) :
    ugrid n i j = 2 * π * j / ((n : ℝ) - 1) ∧
    vgrid w n i j = -(w / 2) + (i : ℝ) * w / ((n : ℝ) - 1) ∧
    xgrid R w n i j = (R + (-(w / 2) + (i : ℝ) * w / ((n : ℝ) - 1))
        * Real.cos (2 * π * (j : ℝ) / ((n : ℝ) - 1) / 2))
      * Real.cos (2 * π * (j : ℝ) / ((n : ℝ) - 1)) ∧
    ygrid R w n i j = (R + (-(w / 2) + (i : ℝ) * w / ((n : ℝ) - 1))
        * Real.cos (2 * π * (j : ℝ) / ((n : ℝ) - 1) / 2))
      * Real.sin (2 * π * (j : ℝ) / ((n : ℝ) - 1)) ∧
    zgrid R w n i j = (-(w / 2) + (i : ℝ) * w / ((n : ℝ) - 1))
      * Real.sin (2 * π * (j : ℝ) / ((n : ℝ) - 1) / 2) := by
  refine ⟨ugrid_eq n i j, by rw [vgrid_eq]; ring, ?_, ?_, ?_⟩
  · unfold xgrid; rw [ugrid_eq, vgrid_eq]; ring
  · unfold ygrid; rw [ugrid_eq, vgrid_eq]; ring
  · unfold zgrid; rw [ugrid_eq, vgrid_eq]; ring

/-- Claim C5: `edge_length()` returns exactly twice the sum over
`i = 0 .. n-2` of `sqrt(dx[i]² + dy[i]² + dz[i]²)` where the
differences are first differences of the boundary samples taken at
`v = w/2` over `n` inclusive angle samples — definitional agreement
between the source computation and the specification formula. -/
theorem c5_edge_length_formula (R w : ℝ) (n : ℕ) :
    edge_length R w n = spec_edge_length R w n := rfl

/-- Claim C8: `surface_area()` and `edge_length()` are deterministic and
side-effect-free.  In the state-passing embedding each call returns the
value together with the post-call state; calling twice yields the same
value and the state (all fields `R, w, n, u, v, x, y, z`) is unchanged. -/
theorem c8_purity (s : Strip) :
    ((s.surfaceAreaCall.2).surfaceAreaCall.1 = s.surfaceAreaCall.1
      ∧ s.surfaceAreaCall.2 = s)
    ∧ ((s.edgeLengthCall.2).edgeLengthCall.1 = s.edgeLengthCall.1
      ∧ s.edgeLengthCall.2 = s) :=
  ⟨⟨rfl, rfl⟩, ⟨rfl, rfl⟩⟩

/-- Witness for C8 at the concrete instance `MobiusStrip(1, 1, 2)`. -/
theorem c8_purity_witness :
    (((mkStrip 1 1 2).surfaceAreaCall.2).surfaceAreaCall.1
        = (mkStrip 1 1 2).surfaceAreaCall.1
      ∧ (mkStrip 1 1 2).surfaceAreaCall.2 = mkStrip 1 1 2)
    ∧ (((mkStrip 1 1 2).edgeLengthCall.2).edgeLengthCall.1
        = (mkStrip 1 1 2).edgeLengthCall.1
      ∧ (mkStrip 1 1 2).edgeLengthCall.2 = mkStrip 1 1 2) :=
  c8_purity (mkStrip 1 1 2)

/-- Claim C9: the boundary points that `edge_length()` re-evaluates at
`v = w/2` coincide with the last row `i = n-1` of the cached coordinate
grids: the independent resampling and the grid slice compute the same
points. -/
theorem c9_boundary_matches_grid (R w : ℝ) (n j : ℕ) (hn : 2 ≤ n) :
    ex R w n j = xgrid R w n (n - 1) j ∧ ey R w n j = ygrid R w n (n - 1) j
      ∧ ez R w n j = zgrid R w n (n - 1) j := by
  have hv : vgrid w n (n - 1) j = w / 2 := vgrid_last hn j
  refine ⟨?_, ?_, ?_⟩
  · unfold ex xgrid; rw [hv]; rfl
  · unfold ey ygrid; rw [hv]; rfl
  · unfold ez zgrid; rw [hv]; rfl

/-- Witness for C9 at `R = 1, w = 1, n = 2, j = 0`. -/
theorem c9_boundary_matches_grid_witness :
    ex 1 1 2 0 = xgrid 1 1 2 (2 - 1) 0 ∧ ey 1 1 2 0 = ygrid 1 1 2 (2 - 1) 0
      ∧ ez 1 1 2 0 = zgrid 1 1 2 (2 - 1) 0 :=
  c9_boundary_matches_grid 1 1 2 0 (by norm_num)

/-! ### Elementary trigonometric and square-root estimates -/

lemma abs_half_le (a b : ℝ) : |(a - b) / 2| = |a - b| / 2 := by
  rw [abs_div]; norm_num

lemma abs_cos_sub (a b : ℝ) : |Real.cos a - Real.cos b| ≤ |a - b| := by
  rw [Real.cos_sub_cos]
  have h1 : |Real.sin ((a + b) / 2)| ≤ 1 := Real.abs_sin_le_one _
  have h2 : |Real.sin ((a - b) / 2)| ≤ |a - b| / 2 := by
    have h := Real.abs_sin_le_abs (x := (a - b) / 2)
    rwa [abs_half_le] at h
  calc |(-2) * Real.sin ((a + b) / 2) * Real.sin ((a - b) / 2)|
      = 2 * (|Real.sin ((a + b) / 2)| * |Real.sin ((a - b) / 2)|) := by
        rw [abs_mul, abs_mul]; norm_num; ring
    _ ≤ 2 * (1 * (|a - b| / 2)) := by
        have := mul_le_mul h1 h2 (abs_nonneg _) (by norm_num : (0:ℝ) ≤ 1)
        linarith
    _ = |a - b| := by ring

lemma abs_sin_sub (a b : ℝ) : |Real.sin a - Real.sin b| ≤ |a - b| := by
  rw [Real.sin_sub_sin]
  have h1 : |Real.cos ((a + b) / 2)| ≤ 1 := Real.abs_cos_le_one _
  have h2 : |Real.sin ((a - b) / 2)| ≤ |a - b| / 2 := by
    have h := Real.abs_sin_le_abs (x := (a - b) / 2)
    rwa [abs_half_le] at h
  calc |2 * Real.sin ((a - b) / 2) * Real.cos ((a + b) / 2)|
      = 2 * (|Real.sin ((a - b) / 2)| * |Real.cos ((a + b) / 2)|) := by
        rw [abs_mul, abs_mul]; norm_num; ring
    _ ≤ 2 * ((|a - b| / 2) * 1) := by
        have := mul_le_mul h2 h1 (abs_nonneg _) (by positivity)
        linarith
    _ = |a - b| := by ring

lemma chordsq (a b : ℝ) :
    (Real.cos b - Real.cos a) ^ 2 + (Real.sin b - Real.sin a) ^ 2
      = 2 - 2 * Real.cos (b - a) := by
  rw [Real.cos_sub]
  have ha := Real.sin_sq_add_cos_sq a
  have hb := Real.sin_sq_add_cos_sq b
  nlinarith [ha, hb]

lemma two_sub_two_cos_eq (t : ℝ) :
    2 - 2 * Real.cos t = 4 * Real.sin (t / 2) ^ 2 := by
  have h := Real.cos_two_mul (t / 2)
  rw [show 2 * (t / 2) = t by ring] at h
  linear_combination (-2) * h + (-4) * Real.sin_sq_add_cos_sq (t / 2)

lemma two_sub_two_cos_le (t : ℝ) : 2 - 2 * Real.cos t ≤ t ^ 2 := by
  rw [two_sub_two_cos_eq]
  have habs : |Real.sin (t / 2)| ≤ |t / 2| := Real.abs_sin_le_abs
  have h2 : Real.sin (t / 2) ^ 2 ≤ (t / 2) ^ 2 := by
    have h3 := mul_self_le_mul_self (abs_nonneg (Real.sin (t / 2))) habs
    nlinarith [sq_abs (Real.sin (t / 2)), sq_abs (t / 2)]
  nlinarith

/-- Chord length of the unit circle between angles `a` and `b` is at
most the arc length. -/
lemma circle_chord_le (a b : ℝ) :
    Real.sqrt ((Real.cos b - Real.cos a) ^ 2 + (Real.sin b - Real.sin a) ^ 2)
      ≤ |b - a| := by
  rw [chordsq]
  calc Real.sqrt (2 - 2 * Real.cos (b - a)) ≤ Real.sqrt ((b - a) ^ 2) :=
        Real.sqrt_le_sqrt (two_sub_two_cos_le (b - a))
    _ = |b - a| := Real.sqrt_sq_eq_abs _

lemma sqrt_add_sq_le (X z : ℝ) (hX : 0 ≤ X) :
    Real.sqrt (X + z ^ 2) ≤ Real.sqrt X + |z| := by
  have h1 : Real.sqrt (X + z ^ 2) ≤ Real.sqrt ((Real.sqrt X + |z|) ^ 2) := by
    apply Real.sqrt_le_sqrt
    have hs := Real.sq_sqrt hX
    nlinarith [Real.sqrt_nonneg X, abs_nonneg z, sq_abs z]
  rwa [Real.sqrt_sq (by positivity)] at h1

/-- Triangle inequality for the Euclidean norm in the plane. -/
lemma minkowski2 (p q r s : ℝ) :
    Real.sqrt ((p + q) ^ 2 + (r + s) ^ 2)
      ≤ Real.sqrt (p ^ 2 + r ^ 2) + Real.sqrt (q ^ 2 + s ^ 2) := by
  have hpr := Real.sq_sqrt (show (0 : ℝ) ≤ p ^ 2 + r ^ 2 by positivity)
  have hqs := Real.sq_sqrt (show (0 : ℝ) ≤ q ^ 2 + s ^ 2 by positivity)
  have hcs : p * q + r * s ≤ Real.sqrt (p ^ 2 + r ^ 2) * Real.sqrt (q ^ 2 + s ^ 2) := by
    have h1 : p * q + r * s ≤ Real.sqrt ((p * q + r * s) ^ 2) := by
      rw [Real.sqrt_sq_eq_abs]; exact le_abs_self _
    have h2 : Real.sqrt ((p * q + r * s) ^ 2)
        ≤ Real.sqrt ((p ^ 2 + r ^ 2) * (q ^ 2 + s ^ 2)) := by
      apply Real.sqrt_le_sqrt
      nlinarith [sq_nonneg (p * s - r * q)]
    calc p * q + r * s ≤ Real.sqrt ((p * q + r * s) ^ 2) := h1
      _ ≤ Real.sqrt ((p ^ 2 + r ^ 2) * (q ^ 2 + s ^ 2)) := h2
      _ = Real.sqrt (p ^ 2 + r ^ 2) * Real.sqrt (q ^ 2 + s ^ 2) :=
          Real.sqrt_mul (by positivity) _
  have h3 : Real.sqrt ((p + q) ^ 2 + (r + s) ^ 2)
      ≤ Real.sqrt ((Real.sqrt (p ^ 2 + r ^ 2) + Real.sqrt (q ^ 2 + s ^ 2)) ^ 2) := by
    apply Real.sqrt_le_sqrt
    nlinarith [hpr, hqs, hcs]
  rwa [Real.sqrt_sq (by positivity)] at h3

/-! ### Boundary endpoints -/

lemma eu_zero (n : ℕ) : eu n 0 = 0 := by
  rw [eu_eq]; simp

lemma eu_last {n : ℕ} (hn : 2 ≤ n) : eu n (n - 1) = 2 * π := by
  rw [eu_eq, nsub_one_cast hn]
  have h0 : ((n : ℝ) - 1) ≠ 0 := ne_of_gt (nsub_one_pos hn)
  field_simp

/-- Claim C10: the boundary sample of `edge_length()` is not closed:
its first point is `(R + w/2, 0, 0)`, its last point (at `u = 2π`) is
`(R - w/2, 0, 0)`, the two endpoints lie at distance exactly `w`
(instances have `w > 0`), and in particular they differ.  The summation
in `edge_length` ranges over `j = 0 .. n-2` only, so no chord between
these two endpoints is ever added to the doubled sum. -/
theorem c10_boundary_not_closed (R w : ℝ) (n : ℕ) (hn : 2 ≤ n) (hw : 0 < w) :
    (ex R w n 0 = R + w / 2 ∧ ey R w n 0 = 0 ∧ ez R w n 0 = 0) ∧
    (ex R w n (n - 1) = R - w / 2 ∧ ey R w n (n - 1) = 0 ∧ ez R w n (n - 1) = 0) ∧
    Real.sqrt ((ex R w n (n - 1) - ex R w n 0) ^ 2 + (ey R w n (n - 1) - ey R w n 0) ^ 2
      + (ez R w n (n - 1) - ez R w n 0) ^ 2) = w ∧
    ex R w n (n - 1) ≠ ex R w n 0 := by
  have h0 : eu n 0 = 0 := eu_zero n
  have hL : eu n (n - 1) = 2 * π := eu_last hn
  have hhalf : eu n (n - 1) / 2 = π := by rw [hL]; ring
  have hx0 : ex R w n 0 = R + w / 2 := by
    unfold ex; rw [h0]; norm_num
  have hy0 : ey R w n 0 = 0 := by
    unfold ey; rw [h0]; simp
  have hz0 : ez R w n 0 = 0 := by
    unfold ez; rw [h0]; norm_num
  have hxL : ex R w n (n - 1) = R - w / 2 := by
    unfold ex; rw [hhalf, hL]; rw [Real.cos_pi, Real.cos_two_pi]; ring
  have hyL : ey R w n (n - 1) = 0 := by
    unfold ey; rw [hL]; simp [Real.sin_two_pi]
  have hzL : ez R w n (n - 1) = 0 := by
    unfold ez; rw [hhalf]; simp [Real.sin_pi]
  refine ⟨⟨hx0, hy0, hz0⟩, ⟨hxL, hyL, hzL⟩, ?_, ?_⟩
  · rw [hx0, hy0, hz0, hxL, hyL, hzL]
    have h1 : (R - w / 2 - (R + w / 2)) ^ 2 + (0 - 0 : ℝ) ^ 2 + (0 - 0 : ℝ) ^ 2 = w ^ 2 := by
      ring
    rw [h1, Real.sqrt_sq hw.le]
  · rw [hx0, hxL]
    intro h
    have : w = 0 := by linarith
    exact absurd this (ne_of_gt hw)

/-- Witness for C10 at `R = 1, w = 1, n = 2`. -/
theorem c10_boundary_not_closed_witness :
    (ex 1 1 2 0 = 1 + 1 / 2 ∧ ey 1 1 2 0 = 0 ∧ ez 1 1 2 0 = 0) ∧
    (ex 1 1 2 (2 - 1) = 1 - 1 / 2 ∧ ey 1 1 2 (2 - 1) = 0 ∧ ez 1 1 2 (2 - 1) = 0) ∧
    Real.sqrt ((ex 1 1 2 (2 - 1) - ex 1 1 2 0) ^ 2 + (ey 1 1 2 (2 - 1) - ey 1 1 2 0) ^ 2
      + (ez 1 1 2 (2 - 1) - ez 1 1 2 0) ^ 2) = 1 ∧
    ex 1 1 2 (2 - 1) ≠ ex 1 1 2 0 :=
  c10_boundary_not_closed 1 1 2 (by norm_num) (by norm_num)

/-! ### Finite-difference estimates for `np.gradient` -/

lemma du_nonneg {n : ℕ} (hn : 2 ≤ n) : 0 ≤ du n := by
  unfold du
  exact div_nonneg (by positivity) (nsub_one_pos hn).le

lemma du_pos {n : ℕ} (hn : 2 ≤ n) : 0 < du n := by
  unfold du
  exact div_pos (by positivity) (nsub_one_pos hn)

lemma dv_nonneg {w : ℝ} {n : ℕ} (hw : 0 ≤ w) (hn : 2 ≤ n) : 0 ≤ dv w n := by
  unfold dv
  exact div_nonneg hw (nsub_one_pos hn).le

lemma dv_pos {w : ℝ} {n : ℕ} (hw : 0 < w) (hn : 2 ≤ n) : 0 < dv w n := by
  unfold dv
  exact div_pos hw (nsub_one_pos hn)

/-- If every unit step of `g` equals `d`, every `np.gradient` entry is `d`. -/
lemma npGradient1_const_step (g : ℕ → ℝ) (m : ℕ) (d : ℝ)
    (hstep : ∀ t, g (t + 1) - g t = d) (hm : 2 ≤ m) (k : ℕ) :
    npGradient1 g m k = d := by
  unfold npGradient1
  split_ifs with h1 h2
  · exact hstep 0
  · have e : m - 1 = (m - 2) + 1 := by omega
    rw [e]; exact hstep (m - 2)
  · have e : (k - 1) + 1 = k := by omega
    have h3 := hstep (k - 1)
    rw [e] at h3
    have h4 := hstep k
    have h5 : g (k + 1) - g (k - 1) = 2 * d := by linarith
    rw [h5]; ring

/-- If every unit step of `g` is bounded by `c`, every `np.gradient`
entry is bounded by `c` (the interior entry is an average of two
steps). -/
lemma npGradient1_abs_le (g : ℕ → ℝ) (m : ℕ) (c : ℝ)
    (hstep : ∀ t, |g (t + 1) - g t| ≤ c) (hm : 2 ≤ m) (k : ℕ) :
    |npGradient1 g m k| ≤ c := by
  unfold npGradient1
  split_ifs with h1 h2
  · exact hstep 0
  · have e : m - 1 = (m - 2) + 1 := by omega
    rw [e]; exact hstep (m - 2)
  · have e : (k - 1) + 1 = k := by omega
    have h3 := hstep (k - 1)
    rw [e] at h3
    have h4 := hstep k
    have h5 : |g (k + 1) - g (k - 1)| ≤ 2 * c := by
      have hsplit : g (k + 1) - g (k - 1) = (g (k + 1) - g k) + (g k - g (k - 1)) := by ring
      rw [hsplit]
      calc |(g (k + 1) - g k) + (g k - g (k - 1))|
          ≤ |g (k + 1) - g k| + |g k - g (k - 1)| := abs_add _ _
        _ ≤ 2 * c := by linarith
    rw [abs_div, abs_two]
    linarith

lemma vgrid_abs_le {w : ℝ} {n : ℕ} (hw : 0 ≤ w) (hn : 2 ≤ n) {i : ℕ} (hi : i ≤ n - 1)
    (j : ℕ) : |vgrid w n i j| ≤ w / 2 := by
  rw [vgrid_eq]
  have hpos := nsub_one_pos hn
  have hle : (i : ℝ) ≤ (n : ℝ) - 1 := by
    rw [← nsub_one_cast hn]; exact_mod_cast hi
  have h0 : (0 : ℝ) ≤ (i : ℝ) := Nat.cast_nonneg i
  have h1 : 0 ≤ w * i / ((n : ℝ) - 1) := by positivity
  have h2 : w * i / ((n : ℝ) - 1) ≤ w := by
    rw [div_le_iff₀ hpos]
    nlinarith
  rw [abs_le]
  constructor <;> linarith

/-- One unit angle step of the `x`-embedding at fixed `v`. -/
lemma x_step_bound (R v a b Δ D : ℝ) (hR : 0 ≤ R) (hD : 0 ≤ D) (hΔ : 0 ≤ Δ)
    (hv : |v| ≤ D) (hab : b - a = Δ) :
    |(R + v * Real.cos (b / 2)) * Real.cos b - (R + v * Real.cos (a / 2)) * Real.cos a|
      ≤ Δ * (R + 3 * D / 2) := by
  have hkey : (R + v * Real.cos (b / 2)) * Real.cos b - (R + v * Real.cos (a / 2)) * Real.cos a
      = v * (Real.cos (b / 2) - Real.cos (a / 2)) * Real.cos b
        + (R + v * Real.cos (a / 2)) * (Real.cos b - Real.cos a) := by ring
  rw [hkey]
  have h1 : |Real.cos (b / 2) - Real.cos (a / 2)| ≤ Δ / 2 := by
    have h := abs_cos_sub (b / 2) (a / 2)
    have he : b / 2 - a / 2 = Δ / 2 := by linarith
    rw [he] at h
    rwa [abs_of_nonneg (by linarith : (0 : ℝ) ≤ Δ / 2)] at h
  have h2 : |Real.cos b - Real.cos a| ≤ Δ := by
    have h := abs_cos_sub b a
    rw [hab] at h
    rwa [abs_of_nonneg hΔ] at h
  have h3 : |R + v * Real.cos (a / 2)| ≤ R + D := by
    calc |R + v * Real.cos (a / 2)| ≤ |R| + |v * Real.cos (a / 2)| := abs_add _ _
      _ = R + |v| * |Real.cos (a / 2)| := by rw [abs_of_nonneg hR, abs_mul]
      _ ≤ R + D * 1 := by
          have h4 := mul_le_mul hv (Real.abs_cos_le_one (a / 2)) (abs_nonneg (Real.cos (a / 2))) hD
          linarith
      _ = R + D := by ring
  calc |v * (Real.cos (b / 2) - Real.cos (a / 2)) * Real.cos b
        + (R + v * Real.cos (a / 2)) * (Real.cos b - Real.cos a)|
      ≤ |v * (Real.cos (b / 2) - Real.cos (a / 2)) * Real.cos b|
        + |(R + v * Real.cos (a / 2)) * (Real.cos b - Real.cos a)| := abs_add _ _
    _ = |v| * |Real.cos (b / 2) - Real.cos (a / 2)| * |Real.cos b|
        + |R + v * Real.cos (a / 2)| * |Real.cos b - Real.cos a| := by
        rw [abs_mul, abs_mul, abs_mul]
    _ ≤ D * (Δ / 2) * 1 + (R + D) * Δ := by
        have p1 : |v| * |Real.cos (b / 2) - Real.cos (a / 2)| ≤ D * (Δ / 2) :=
          mul_le_mul hv h1 (abs_nonneg _) hD
        have p2 : |v| * |Real.cos (b / 2) - Real.cos (a / 2)| * |Real.cos b|
            ≤ D * (Δ / 2) * 1 := by
          apply mul_le_mul p1 (Real.abs_cos_le_one b) (abs_nonneg _) (by positivity)
        have p3 : |R + v * Real.cos (a / 2)| * |Real.cos b - Real.cos a| ≤ (R + D) * Δ :=
          mul_le_mul h3 h2 (abs_nonneg _) (by linarith)
        linarith
    _ = Δ * (R + 3 * D / 2) := by ring

/-- One unit angle step of the `y`-embedding at fixed `v`. -/
lemma y_step_bound (R v a b Δ D : ℝ) (hR : 0 ≤ R) (hD : 0 ≤ D) (hΔ : 0 ≤ Δ)
    (hv : |v| ≤ D) (hab : b - a = Δ) :
    |(R + v * Real.cos (b / 2)) * Real.sin b - (R + v * Real.cos (a / 2)) * Real.sin a|
      ≤ Δ * (R + 3 * D / 2) := by
  have hkey : (R + v * Real.cos (b / 2)) * Real.sin b - (R + v * Real.cos (a / 2)) * Real.sin a
      = v * (Real.cos (b / 2) - Real.cos (a / 2)) * Real.sin b
        + (R + v * Real.cos (a / 2)) * (Real.sin b - Real.sin a) := by ring
  rw [hkey]
  have h1 : |Real.cos (b / 2) - Real.cos (a / 2)| ≤ Δ / 2 := by
    have h := abs_cos_sub (b / 2) (a / 2)
    have he : b / 2 - a / 2 = Δ / 2 := by linarith
    rw [he] at h
    rwa [abs_of_nonneg (by linarith : (0 : ℝ) ≤ Δ / 2)] at h
  have h2 : |Real.sin b - Real.sin a| ≤ Δ := by
    have h := abs_sin_sub b a
    rw [hab] at h
    rwa [abs_of_nonneg hΔ] at h
  have h3 : |R + v * Real.cos (a / 2)| ≤ R + D := by
    calc |R + v * Real.cos (a / 2)| ≤ |R| + |v * Real.cos (a / 2)| := abs_add _ _
      _ = R + |v| * |Real.cos (a / 2)| := by rw [abs_of_nonneg hR, abs_mul]
      _ ≤ R + D * 1 := by
          have h4 := mul_le_mul hv (Real.abs_cos_le_one (a / 2)) (abs_nonneg (Real.cos (a / 2))) hD
          linarith
      _ = R + D := by ring
  calc |v * (Real.cos (b / 2) - Real.cos (a / 2)) * Real.sin b
        + (R + v * Real.cos (a / 2)) * (Real.sin b - Real.sin a)|
      ≤ |v * (Real.cos (b / 2) - Real.cos (a / 2)) * Real.sin b|
        + |(R + v * Real.cos (a / 2)) * (Real.sin b - Real.sin a)| := abs_add _ _
    _ = |v| * |Real.cos (b / 2) - Real.cos (a / 2)| * |Real.sin b|
        + |R + v * Real.cos (a / 2)| * |Real.sin b - Real.sin a| := by
        rw [abs_mul, abs_mul, abs_mul]
    _ ≤ D * (Δ / 2) * 1 + (R + D) * Δ := by
        have p1 : |v| * |Real.cos (b / 2) - Real.cos (a / 2)| ≤ D * (Δ / 2) :=
          mul_le_mul hv h1 (abs_nonneg _) hD
        have p2 : |v| * |Real.cos (b / 2) - Real.cos (a / 2)| * |Real.sin b|
            ≤ D * (Δ / 2) * 1 := by
          apply mul_le_mul p1 (Real.abs_sin_le_one b) (abs_nonneg _) (by positivity)
        have p3 : |R + v * Real.cos (a / 2)| * |Real.sin b - Real.sin a| ≤ (R + D) * Δ :=
          mul_le_mul h3 h2 (abs_nonneg _) (by linarith)
        linarith
    _ = Δ * (R + 3 * D / 2) := by ring

/-- One unit angle step of the `z`-embedding at fixed `v`. -/
lemma z_step_bound (v a b Δ D : ℝ) (hD : 0 ≤ D) (hΔ : 0 ≤ Δ)
    (hv : |v| ≤ D) (hab : b - a = Δ) :
    |v * Real.sin (b / 2) - v * Real.sin (a / 2)| ≤ Δ * (D / 2) := by
  have hkey : v * Real.sin (b / 2) - v * Real.sin (a / 2)
      = v * (Real.sin (b / 2) - Real.sin (a / 2)) := by ring
  rw [hkey, abs_mul]
  have h1 : |Real.sin (b / 2) - Real.sin (a / 2)| ≤ Δ / 2 := by
    have h := abs_sin_sub (b / 2) (a / 2)
    have he : b / 2 - a / 2 = Δ / 2 := by linarith
    rw [he] at h
    rwa [abs_of_nonneg (by linarith : (0 : ℝ) ≤ Δ / 2)] at h
  calc |v| * |Real.sin (b / 2) - Real.sin (a / 2)| ≤ D * (Δ / 2) :=
        mul_le_mul hv h1 (abs_nonneg _) hD
    _ = Δ * (D / 2) := by ring

/-- The `u`-direction gradient of the `x`-grid is bounded by the
Lipschitz constant of the embedding times the angle spacing. -/
lemma xu_abs_le {R w : ℝ} {n : ℕ} (hR : 0 ≤ R) (hw : 0 ≤ w) (hn : 2 ≤ n)
    {i : ℕ} (hi : i ≤ n - 1) (j : ℕ) :
    |gradAxis1 (xgrid R w n) n i j| ≤ du n * (R + 3 * w / 4) := by
  unfold gradAxis1
  apply npGradient1_abs_le _ _ _ _ hn
  intro t
  have h := x_step_bound R (vgrid w n i t) (ugrid n i t) (ugrid n i (t + 1)) (du n) (w / 2)
    hR (by linarith) (du_nonneg hn) (vgrid_abs_le hw hn hi t) (ugrid_succ_sub n i t)
  calc |xgrid R w n i (t + 1) - xgrid R w n i t| ≤ du n * (R + 3 * (w / 2) / 2) := h
    _ = du n * (R + 3 * w / 4) := by ring

lemma yu_abs_le {R w : ℝ} {n : ℕ} (hR : 0 ≤ R) (hw : 0 ≤ w) (hn : 2 ≤ n)
    {i : ℕ} (hi : i ≤ n - 1) (j : ℕ) :
    |gradAxis1 (ygrid R w n) n i j| ≤ du n * (R + 3 * w / 4) := by
  unfold gradAxis1
  apply npGradient1_abs_le _ _ _ _ hn
  intro t
  have h := y_step_bound R (vgrid w n i t) (ugrid n i t) (ugrid n i (t + 1)) (du n) (w / 2)
    hR (by linarith) (du_nonneg hn) (vgrid_abs_le hw hn hi t) (ugrid_succ_sub n i t)
  calc |ygrid R w n i (t + 1) - ygrid R w n i t| ≤ du n * (R + 3 * (w / 2) / 2) := h
    _ = du n * (R + 3 * w / 4) := by ring

lemma zu_abs_le {R w : ℝ} {n : ℕ} (hw : 0 ≤ w) (hn : 2 ≤ n)
    {i : ℕ} (hi : i ≤ n - 1) (j : ℕ) :
    |gradAxis1 (zgrid R w n) n i j| ≤ du n * (w / 4) := by
  unfold gradAxis1
  apply npGradient1_abs_le _ _ _ _ hn
  intro t
  have h := z_step_bound (vgrid w n i t) (ugrid n i t) (ugrid n i (t + 1)) (du n) (w / 2)
    (by linarith) (du_nonneg hn) (vgrid_abs_le hw hn hi t) (ugrid_succ_sub n i t)
  calc |zgrid R w n i (t + 1) - zgrid R w n i t| ≤ du n * (w / 2 / 2) := h
    _ = du n * (w / 4) := by ring

/-- The `v`-direction gradient of the `x`-grid is exact: the grid is
affine in the row index. -/
lemma xv_eq {R w : ℝ} {n : ℕ} (hn : 2 ≤ n) (i j : ℕ) :
    gradAxis0 (xgrid R w n) n i j
      = dv w n * (Real.cos (ugrid n 0 j / 2) * Real.cos (ugrid n 0 j)) := by
  unfold gradAxis0
  apply npGradient1_const_step _ _ _ _ hn
  intro t
  show xgrid R w n (t + 1) j - xgrid R w n t j = _
  unfold xgrid
  have hv := vgrid_succ_sub w n t j
  have hu1 : ugrid n (t + 1) j = ugrid n 0 j := rfl
  have hu2 : ugrid n t j = ugrid n 0 j := rfl
  rw [hu1, hu2]
  linear_combination (Real.cos (ugrid n 0 j / 2) * Real.cos (ugrid n 0 j)) * hv

lemma yv_eq {R w : ℝ} {n : ℕ} (hn : 2 ≤ n) (i j : ℕ) :
    gradAxis0 (ygrid R w n) n i j
      = dv w n * (Real.cos (ugrid n 0 j / 2) * Real.sin (ugrid n 0 j)) := by
  unfold gradAxis0
  apply npGradient1_const_step _ _ _ _ hn
  intro t
  show ygrid R w n (t + 1) j - ygrid R w n t j = _
  unfold ygrid
  have hv := vgrid_succ_sub w n t j
  have hu1 : ugrid n (t + 1) j = ugrid n 0 j := rfl
  have hu2 : ugrid n t j = ugrid n 0 j := rfl
  rw [hu1, hu2]
  linear_combination (Real.cos (ugrid n 0 j / 2) * Real.sin (ugrid n 0 j)) * hv

lemma zv_eq {R w : ℝ} {n : ℕ} (hn : 2 ≤ n) (i j : ℕ) :
    gradAxis0 (zgrid R w n) n i j = dv w n * Real.sin (ugrid n 0 j / 2) := by
  unfold gradAxis0
  apply npGradient1_const_step _ _ _ _ hn
  intro t
  show zgrid R w n (t + 1) j - zgrid R w n t j = _
  unfold zgrid
  have hv := vgrid_succ_sub w n t j
  have hu1 : ugrid n (t + 1) j = ugrid n 0 j := rfl
  have hu2 : ugrid n t j = ugrid n 0 j := rfl
  rw [hu1, hu2]
  linear_combination (Real.sin (ugrid n 0 j / 2)) * hv

lemma xv_abs_le {R w : ℝ} {n : ℕ} (hw : 0 ≤ w) (hn : 2 ≤ n) (i j : ℕ) :
    |gradAxis0 (xgrid R w n) n i j| ≤ dv w n := by
  rw [xv_eq hn i j, abs_mul, abs_of_nonneg (dv_nonneg hw hn), abs_mul]
  have h1 := mul_le_mul (Real.abs_cos_le_one (ugrid n 0 j / 2))
    (Real.abs_cos_le_one (ugrid n 0 j)) (abs_nonneg _) (by norm_num)
  nlinarith [dv_nonneg hw hn, abs_nonneg (Real.cos (ugrid n 0 j / 2)),
    abs_nonneg (Real.cos (ugrid n 0 j))]

lemma yv_abs_le {R w : ℝ} {n : ℕ} (hw : 0 ≤ w) (hn : 2 ≤ n) (i j : ℕ) :
    |gradAxis0 (ygrid R w n) n i j| ≤ dv w n := by
  rw [yv_eq hn i j, abs_mul, abs_of_nonneg (dv_nonneg hw hn), abs_mul]
  have h1 := mul_le_mul (Real.abs_cos_le_one (ugrid n 0 j / 2))
    (Real.abs_sin_le_one (ugrid n 0 j)) (abs_nonneg _) (by norm_num)
  nlinarith [dv_nonneg hw hn, abs_nonneg (Real.cos (ugrid n 0 j / 2)),
    abs_nonneg (Real.sin (ugrid n 0 j))]

lemma zv_abs_le {R w : ℝ} {n : ℕ} (hw : 0 ≤ w) (hn : 2 ≤ n) (i j : ℕ) :
    |gradAxis0 (zgrid R w n) n i j| ≤ dv w n := by
  rw [zv_eq hn i j, abs_mul, abs_of_nonneg (dv_nonneg hw hn)]
  nlinarith [dv_nonneg hw hn, Real.abs_sin_le_one (ugrid n 0 j / 2),
    abs_nonneg (Real.sin (ugrid n 0 j / 2))]

/-! ### Pointwise and global surface-area bounds -/

/-- Pointwise bound on the cross-product magnitude: every `dA` entry of
the source computation is at most `du * dv * sqrt(2(R+w)² + 4(R+3w/4)²)`,
because the index-space gradients already carry one factor `du`
resp. `dv` each. -/
lemma dA_le {R w : ℝ} {n : ℕ} (hR : 0 ≤ R) (hw : 0 ≤ w) (hn : 2 ≤ n)
    {i : ℕ} (hi : i ≤ n - 1) (j : ℕ) :
    dAOf (xgrid R w n) (ygrid R w n) (zgrid R w n) n i j
      ≤ du n * dv w n * Real.sqrt (2 * (R + w) ^ 2 + 4 * (R + 3 * w / 4) ^ 2) := by
  have hdu := du_nonneg hn
  have hdv := dv_nonneg hw hn
  have hxu := xu_abs_le hR hw hn hi j
  have hyu := yu_abs_le hR hw hn hi j
  have hzu := zu_abs_le (R := R) hw hn hi j
  have hxv := xv_abs_le (R := R) hw hn i j
  have hyv := yv_abs_le (R := R) hw hn i j
  have hzv := zv_abs_le (R := R) hw hn i j
  set xu := gradAxis1 (xgrid R w n) n i j
  set yu := gradAxis1 (ygrid R w n) n i j
  set zu := gradAxis1 (zgrid R w n) n i j
  set xv := gradAxis0 (xgrid R w n) n i j
  set yv := gradAxis0 (ygrid R w n) n i j
  set zv := gradAxis0 (zgrid R w n) n i j
  have hL : 0 ≤ du n * (R + 3 * w / 4) := by positivity
  have hz4 : 0 ≤ du n * (w / 4) := by positivity
  have hcx : |yu * zv - zu * yv| ≤ du n * dv w n * (R + w) := by
    calc |yu * zv - zu * yv| ≤ |yu * zv| + |zu * yv| := abs_sub _ _
      _ = |yu| * |zv| + |zu| * |yv| := by rw [abs_mul, abs_mul]
      _ ≤ du n * (R + 3 * w / 4) * dv w n + du n * (w / 4) * dv w n := by
          have p1 := mul_le_mul hyu hzv (abs_nonneg _) hL
          have p2 := mul_le_mul hzu hyv (abs_nonneg _) hz4
          linarith
      _ = du n * dv w n * (R + w) := by ring
  have hcy : |zu * xv - xu * zv| ≤ du n * dv w n * (R + w) := by
    calc |zu * xv - xu * zv| ≤ |zu * xv| + |xu * zv| := abs_sub _ _
      _ = |zu| * |xv| + |xu| * |zv| := by rw [abs_mul, abs_mul]
      _ ≤ du n * (w / 4) * dv w n + du n * (R + 3 * w / 4) * dv w n := by
          have p1 := mul_le_mul hzu hxv (abs_nonneg _) hz4
          have p2 := mul_le_mul hxu hzv (abs_nonneg _) hL
          linarith
      _ = du n * dv w n * (R + w) := by ring
  have hcz : |xu * yv - yu * xv| ≤ du n * dv w n * (2 * (R + 3 * w / 4)) := by
    calc |xu * yv - yu * xv| ≤ |xu * yv| + |yu * xv| := abs_sub _ _
      _ = |xu| * |yv| + |yu| * |xv| := by rw [abs_mul, abs_mul]
      _ ≤ du n * (R + 3 * w / 4) * dv w n + du n * (R + 3 * w / 4) * dv w n := by
          have p1 := mul_le_mul hxu hyv (abs_nonneg _) hL
          have p2 := mul_le_mul hyu hxv (abs_nonneg _) hL
          linarith
      _ = du n * dv w n * (2 * (R + 3 * w / 4)) := by ring
  have hB : 0 ≤ du n * dv w n := by positivity
  have hsq : (yu * zv - zu * yv) ^ 2 + (zu * xv - xu * zv) ^ 2 + (xu * yv - yu * xv) ^ 2
      ≤ (du n * dv w n) ^ 2 * (2 * (R + w) ^ 2 + 4 * (R + 3 * w / 4) ^ 2) := by
    have q1 : (yu * zv - zu * yv) ^ 2 ≤ (du n * dv w n * (R + w)) ^ 2 := by
      have := abs_le.mp hcx
      exact sq_le_sq' (by linarith) (by linarith)
    have q2 : (zu * xv - xu * zv) ^ 2 ≤ (du n * dv w n * (R + w)) ^ 2 := by
      have := abs_le.mp hcy
      exact sq_le_sq' (by linarith) (by linarith)
    have q3 : (xu * yv - yu * xv) ^ 2 ≤ (du n * dv w n * (2 * (R + 3 * w / 4))) ^ 2 := by
      have := abs_le.mp hcz
      exact sq_le_sq' (by linarith) (by linarith)
    nlinarith [q1, q2, q3]
  calc dAOf (xgrid R w n) (ygrid R w n) (zgrid R w n) n i j
      ≤ Real.sqrt ((du n * dv w n) ^ 2 * (2 * (R + w) ^ 2 + 4 * (R + 3 * w / 4) ^ 2)) :=
        Real.sqrt_le_sqrt hsq
    _ = du n * dv w n * Real.sqrt (2 * (R + w) ^ 2 + 4 * (R + 3 * w / 4) ^ 2) := by
        rw [Real.sqrt_mul (sq_nonneg _), Real.sqrt_sq hB]

/-- Global upper bound on `surface_area`: the double Riemann sum over
`n²` grid cells of terms bounded by `du*dv*K`, multiplied once more by
`du*dv`, is at most `n² (du dv)² K`. -/
lemma surface_le {R w : ℝ} {n : ℕ} (hR : 0 ≤ R) (hw : 0 ≤ w) (hn : 2 ≤ n) :
    surface_area R w n ≤ (n : ℝ) ^ 2 * (du n * dv w n) ^ 2
      * Real.sqrt (2 * (R + w) ^ 2 + 4 * (R + 3 * w / 4) ^ 2) := by
  have hdu := du_nonneg hn
  have hdv := dv_nonneg hw hn
  set K := Real.sqrt (2 * (R + w) ^ 2 + 4 * (R + 3 * w / 4) ^ 2) with hK
  have hK0 : 0 ≤ K := Real.sqrt_nonneg _
  have hinner : ∀ i ∈ range n,
      (∑ j ∈ range n, dAOf (xgrid R w n) (ygrid R w n) (zgrid R w n) n i j)
        ≤ (n : ℝ) * (du n * dv w n * K) := by
    intro i hi
    have hi2 : i ≤ n - 1 := by
      have := Finset.mem_range.mp hi
      omega
    calc (∑ j ∈ range n, dAOf (xgrid R w n) (ygrid R w n) (zgrid R w n) n i j)
        ≤ (range n).card • (du n * dv w n * K) :=
          Finset.sum_le_card_nsmul _ _ _ (fun j hj => dA_le hR hw hn hi2 j)
      _ = (n : ℝ) * (du n * dv w n * K) := by
          rw [Finset.card_range, nsmul_eq_mul]
  have houter : (∑ i ∈ range n, ∑ j ∈ range n,
      dAOf (xgrid R w n) (ygrid R w n) (zgrid R w n) n i j)
        ≤ (n : ℝ) * ((n : ℝ) * (du n * dv w n * K)) := by
    calc (∑ i ∈ range n, ∑ j ∈ range n,
        dAOf (xgrid R w n) (ygrid R w n) (zgrid R w n) n i j)
        ≤ (range n).card • ((n : ℝ) * (du n * dv w n * K)) :=
          Finset.sum_le_card_nsmul _ _ _ hinner
      _ = (n : ℝ) * ((n : ℝ) * (du n * dv w n * K)) := by
          rw [Finset.card_range, nsmul_eq_mul]
  show (∑ i ∈ range n, ∑ j ∈ range n,
      dAOf (xgrid R w n) (ygrid R w n) (zgrid R w n) n i j) * du n * dv w n
    ≤ (n : ℝ) ^ 2 * (du n * dv w n) ^ 2 * K
  have h1 : (∑ i ∈ range n, ∑ j ∈ range n,
      dAOf (xgrid R w n) (ygrid R w n) (zgrid R w n) n i j) * du n
        ≤ ((n : ℝ) * ((n : ℝ) * (du n * dv w n * K))) * du n :=
    mul_le_mul_of_nonneg_right houter hdu
  have h2 : (∑ i ∈ range n, ∑ j ∈ range n,
      dAOf (xgrid R w n) (ygrid R w n) (zgrid R w n) n i j) * du n * dv w n
        ≤ ((n : ℝ) * ((n : ℝ) * (du n * dv w n * K))) * du n * dv w n :=
    mul_le_mul_of_nonneg_right h1 hdv
  calc (∑ i ∈ range n, ∑ j ∈ range n,
      dAOf (xgrid R w n) (ygrid R w n) (zgrid R w n) n i j) * du n * dv w n
      ≤ ((n : ℝ) * ((n : ℝ) * (du n * dv w n * K))) * du n * dv w n := h2
    _ = (n : ℝ) ^ 2 * (du n * dv w n) ^ 2 * K := by ring

lemma surface_nonneg {R w : ℝ} {n : ℕ} (hw : 0 ≤ w) (hn : 2 ≤ n) :
    0 ≤ surface_area R w n := by
  show 0 ≤ (∑ i ∈ range n, ∑ j ∈ range n,
    dAOf (xgrid R w n) (ygrid R w n) (zgrid R w n) n i j) * du n * dv w n
  have hsum : 0 ≤ ∑ i ∈ range n, ∑ j ∈ range n,
      dAOf (xgrid R w n) (ygrid R w n) (zgrid R w n) n i j :=
    Finset.sum_nonneg fun i _ => Finset.sum_nonneg fun j _ => Real.sqrt_nonneg _
  exact mul_nonneg (mul_nonneg hsum (du_nonneg hn)) (dv_nonneg hw hn)

/-! ### Chord bounds for the boundary curve -/

/-- One boundary chord of the embedding at fixed half-width radius, in
abstract form: the chord between angles `a` and `b = a + Δ` has length
at most `(R + w) Δ`. -/
lemma chord_le_aux (R w a b Δ : ℝ) (hR : 0 ≤ R) (hw : 0 ≤ w) (hΔ : 0 ≤ Δ)
    (hab : b - a = Δ) :
    Real.sqrt (((R + w / 2 * Real.cos (b / 2)) * Real.cos b
        - (R + w / 2 * Real.cos (a / 2)) * Real.cos a) ^ 2
      + ((R + w / 2 * Real.cos (b / 2)) * Real.sin b
        - (R + w / 2 * Real.cos (a / 2)) * Real.sin a) ^ 2
      + (w / 2 * Real.sin (b / 2) - w / 2 * Real.sin (a / 2)) ^ 2)
      ≤ (R + w) * Δ := by
  set p := (w / 2 * (Real.cos (b / 2) - Real.cos (a / 2))) * Real.cos b with hp
  set q := (R + w / 2 * Real.cos (a / 2)) * (Real.cos b - Real.cos a) with hq
  set r := (w / 2 * (Real.cos (b / 2) - Real.cos (a / 2))) * Real.sin b with hr
  set t := (R + w / 2 * Real.cos (a / 2)) * (Real.sin b - Real.sin a) with ht
  have hx : (R + w / 2 * Real.cos (b / 2)) * Real.cos b
      - (R + w / 2 * Real.cos (a / 2)) * Real.cos a = p + q := by
    rw [hp, hq]; ring
  have hy : (R + w / 2 * Real.cos (b / 2)) * Real.sin b
      - (R + w / 2 * Real.cos (a / 2)) * Real.sin a = r + t := by
    rw [hr, ht]; ring
  rw [hx, hy]
  have hc : |Real.cos (b / 2) - Real.cos (a / 2)| ≤ Δ / 2 := by
    have h := abs_cos_sub (b / 2) (a / 2)
    have he2 : b / 2 - a / 2 = Δ / 2 := by linarith
    rw [he2] at h
    rwa [abs_of_nonneg (by linarith : (0 : ℝ) ≤ Δ / 2)] at h
  have h1 : Real.sqrt (p ^ 2 + r ^ 2) ≤ w * Δ / 4 := by
    have he : p ^ 2 + r ^ 2 = (w / 2 * (Real.cos (b / 2) - Real.cos (a / 2))) ^ 2 := by
      rw [hp, hr]
      linear_combination (w / 2 * (Real.cos (b / 2) - Real.cos (a / 2))) ^ 2
        * Real.sin_sq_add_cos_sq b
    rw [he, Real.sqrt_sq_eq_abs, abs_mul, abs_of_nonneg (by linarith : (0 : ℝ) ≤ w / 2)]
    calc w / 2 * |Real.cos (b / 2) - Real.cos (a / 2)| ≤ w / 2 * (Δ / 2) :=
          mul_le_mul_of_nonneg_left hc (by linarith)
      _ = w * Δ / 4 := by ring
  have h2 : Real.sqrt (q ^ 2 + t ^ 2) ≤ (R + w / 2) * Δ := by
    have he : q ^ 2 + t ^ 2 = (R + w / 2 * Real.cos (a / 2)) ^ 2
        * ((Real.cos b - Real.cos a) ^ 2 + (Real.sin b - Real.sin a) ^ 2) := by
      rw [hq, ht]; ring
    rw [he, Real.sqrt_mul (sq_nonneg _), Real.sqrt_sq_eq_abs]
    have hcc := circle_chord_le a b
    have hba : |b - a| = Δ := by rw [hab, abs_of_nonneg hΔ]
    rw [hba] at hcc
    have hfa : |R + w / 2 * Real.cos (a / 2)| ≤ R + w / 2 := by
      calc |R + w / 2 * Real.cos (a / 2)| ≤ |R| + |w / 2 * Real.cos (a / 2)| := abs_add _ _
        _ = R + w / 2 * |Real.cos (a / 2)| := by
            rw [abs_of_nonneg hR, abs_mul, abs_of_nonneg (by linarith : (0 : ℝ) ≤ w / 2)]
        _ ≤ R + w / 2 * 1 := by
            have h3 := mul_le_mul_of_nonneg_left (Real.abs_cos_le_one (a / 2))
              (by linarith : (0 : ℝ) ≤ w / 2)
            linarith
        _ = R + w / 2 := by ring
    exact mul_le_mul hfa hcc (Real.sqrt_nonneg _) (by linarith)
  have hz : |w / 2 * Real.sin (b / 2) - w / 2 * Real.sin (a / 2)| ≤ w * Δ / 4 := by
    have h := z_step_bound (w / 2) a b Δ (w / 2) (by linarith) hΔ
      (by rw [abs_of_nonneg (by linarith : (0 : ℝ) ≤ w / 2)]) hab
    calc |w / 2 * Real.sin (b / 2) - w / 2 * Real.sin (a / 2)| ≤ Δ * (w / 2 / 2) := h
      _ = w * Δ / 4 := by ring
  have hX : (0 : ℝ) ≤ (p + q) ^ 2 + (r + t) ^ 2 := by positivity
  calc Real.sqrt ((p + q) ^ 2 + (r + t) ^ 2
        + (w / 2 * Real.sin (b / 2) - w / 2 * Real.sin (a / 2)) ^ 2)
      ≤ Real.sqrt ((p + q) ^ 2 + (r + t) ^ 2)
        + |w / 2 * Real.sin (b / 2) - w / 2 * Real.sin (a / 2)| := sqrt_add_sq_le _ _ hX
    _ ≤ (Real.sqrt (p ^ 2 + r ^ 2) + Real.sqrt (q ^ 2 + t ^ 2))
        + |w / 2 * Real.sin (b / 2) - w / 2 * Real.sin (a / 2)| := by
        have hmk := minkowski2 p q r t
        linarith
    _ ≤ (w * Δ / 4 + (R + w / 2) * Δ) + w * Δ / 4 := by linarith
    _ = (R + w) * Δ := by ring

/-- Quadratic chord bound in polar form with abstract radii: if both
radii are at least `m` and `2 - 2c = 4s²`, the squared chord
`fa² + fb² - 2 fa fb c` is at least `(2 m s)²`. -/
lemma polar_chord_sq_ge (fa fb m s c : ℝ) (hma : m ≤ fa) (hmb : m ≤ fb) (hm0 : 0 ≤ m)
    (hc1 : c ≤ 1) (hsc : 2 - 2 * c = 4 * s ^ 2) :
    (2 * m * s) ^ 2 ≤ fa ^ 2 + fb ^ 2 - 2 * fa * fb * c := by
  have hprod : m * m ≤ fa * fb := mul_le_mul hma hmb hm0 (le_trans hm0 hma)
  nlinarith [sq_nonneg (fa - fb),
    mul_nonneg (sub_nonneg.mpr hprod) (sub_nonneg.mpr hc1), hsc]

/-- Lower bound on one boundary chord via the planar projection, in
abstract form. -/
lemma chord_ge_aux (R w a b Δ : ℝ) (hw : 0 ≤ w) (hm : 0 ≤ R - w / 2) (hΔ : 0 ≤ Δ)
    (hab : b - a = Δ) (hs0 : 0 ≤ Real.sin (Δ / 2)) :
    2 * (R - w / 2) * Real.sin (Δ / 2)
      ≤ Real.sqrt (((R + w / 2 * Real.cos (b / 2)) * Real.cos b
          - (R + w / 2 * Real.cos (a / 2)) * Real.cos a) ^ 2
        + ((R + w / 2 * Real.cos (b / 2)) * Real.sin b
          - (R + w / 2 * Real.cos (a / 2)) * Real.sin a) ^ 2
        + (w / 2 * Real.sin (b / 2) - w / 2 * Real.sin (a / 2)) ^ 2) := by
  have hfa : R - w / 2 ≤ R + w / 2 * Real.cos (a / 2) := by
    have h := Real.neg_one_le_cos (a / 2)
    nlinarith
  have hfb : R - w / 2 ≤ R + w / 2 * Real.cos (b / 2) := by
    have h := Real.neg_one_le_cos (b / 2)
    nlinarith
  have hid : ((R + w / 2 * Real.cos (b / 2)) * Real.cos b
      - (R + w / 2 * Real.cos (a / 2)) * Real.cos a) ^ 2
      + ((R + w / 2 * Real.cos (b / 2)) * Real.sin b
      - (R + w / 2 * Real.cos (a / 2)) * Real.sin a) ^ 2
      = (R + w / 2 * Real.cos (a / 2)) ^ 2 + (R + w / 2 * Real.cos (b / 2)) ^ 2
        - 2 * (R + w / 2 * Real.cos (a / 2)) * (R + w / 2 * Real.cos (b / 2))
          * Real.cos (b - a) := by
    rw [Real.cos_sub]
    linear_combination (R + w / 2 * Real.cos (b / 2)) ^ 2 * Real.sin_sq_add_cos_sq b
      + (R + w / 2 * Real.cos (a / 2)) ^ 2 * Real.sin_sq_add_cos_sq a
  have htc : 2 - 2 * Real.cos (b - a) = 4 * Real.sin (Δ / 2) ^ 2 := by
    have h := two_sub_two_cos_eq (b - a)
    rw [show (b - a) / 2 = Δ / 2 by rw [hab]] at h
    exact h
  have hge := polar_chord_sq_ge (R + w / 2 * Real.cos (a / 2))
    (R + w / 2 * Real.cos (b / 2)) (R - w / 2) (Real.sin (Δ / 2)) (Real.cos (b - a))
    hfa hfb hm (Real.cos_le_one (b - a)) htc
  have hsq : (2 * (R - w / 2) * Real.sin (Δ / 2)) ^ 2
      ≤ ((R + w / 2 * Real.cos (b / 2)) * Real.cos b
        - (R + w / 2 * Real.cos (a / 2)) * Real.cos a) ^ 2
      + ((R + w / 2 * Real.cos (b / 2)) * Real.sin b
        - (R + w / 2 * Real.cos (a / 2)) * Real.sin a) ^ 2
      + (w / 2 * Real.sin (b / 2) - w / 2 * Real.sin (a / 2)) ^ 2 := by
    rw [hid]
    have hz := sq_nonneg (w / 2 * Real.sin (b / 2) - w / 2 * Real.sin (a / 2))
    linarith
  have hlhs : 0 ≤ 2 * (R - w / 2) * Real.sin (Δ / 2) :=
    mul_nonneg (mul_nonneg (by norm_num) hm) hs0
  calc 2 * (R - w / 2) * Real.sin (Δ / 2)
      = Real.sqrt ((2 * (R - w / 2) * Real.sin (Δ / 2)) ^ 2) := (Real.sqrt_sq hlhs).symm
    _ ≤ Real.sqrt (((R + w / 2 * Real.cos (b / 2)) * Real.cos b
          - (R + w / 2 * Real.cos (a / 2)) * Real.cos a) ^ 2
        + ((R + w / 2 * Real.cos (b / 2)) * Real.sin b
          - (R + w / 2 * Real.cos (a / 2)) * Real.sin a) ^ 2
        + (w / 2 * Real.sin (b / 2) - w / 2 * Real.sin (a / 2)) ^ 2) :=
        Real.sqrt_le_sqrt hsq

lemma du_half (n : ℕ) : du n / 2 = π / ((n : ℝ) - 1) := by
  unfold du; ring

lemma sin_du_half_nonneg {n : ℕ} (hn : 2 ≤ n) : 0 ≤ Real.sin (π / ((n : ℝ) - 1)) := by
  apply Real.sin_nonneg_of_nonneg_of_le_pi
  · have := nsub_one_pos hn
    positivity
  · have h1 : (1 : ℝ) ≤ (n : ℝ) - 1 := by
      have h2 : (2 : ℝ) ≤ (n : ℝ) := by exact_mod_cast hn
      linarith
    exact div_le_self Real.pi_pos.le h1

lemma ds_le {R w : ℝ} {n : ℕ} (hR : 0 ≤ R) (hw : 0 ≤ w) (hn : 2 ≤ n) (j : ℕ) :
    ds R w n j ≤ (R + w) * du n := by
  unfold ds ex ey ez
  exact chord_le_aux R w (eu n j) (eu n (j + 1)) (du n) hR hw (du_nonneg hn)
    (eu_succ_sub n j)

lemma ds_ge {R w : ℝ} {n : ℕ} (hw : 0 ≤ w) (hn : 2 ≤ n) (hm : 0 ≤ R - w / 2) (j : ℕ) :
    2 * (R - w / 2) * Real.sin (π / ((n : ℝ) - 1)) ≤ ds R w n j := by
  unfold ds ex ey ez
  have h := chord_ge_aux R w (eu n j) (eu n (j + 1)) (du n) hw hm (du_nonneg hn)
    (eu_succ_sub n j) (by rw [du_half]; exact sin_du_half_nonneg hn)
  rwa [du_half] at h

/-- Global upper bound: `edge_length ≤ 4π(R + w)`. -/
lemma edge_le {R w : ℝ} {n : ℕ} (hR : 0 ≤ R) (hw : 0 ≤ w) (hn : 2 ≤ n) :
    edge_length R w n ≤ 4 * π * (R + w) := by
  have hsum : (∑ j ∈ range (n - 1), ds R w n j) ≤ ((n : ℝ) - 1) * ((R + w) * du n) := by
    calc (∑ j ∈ range (n - 1), ds R w n j)
        ≤ (range (n - 1)).card • ((R + w) * du n) :=
          Finset.sum_le_card_nsmul _ _ _ (fun j _ => ds_le hR hw hn j)
      _ = ((n : ℝ) - 1) * ((R + w) * du n) := by
          rw [Finset.card_range, nsmul_eq_mul, nsub_one_cast hn]
  have h0 : ((n : ℝ) - 1) ≠ 0 := ne_of_gt (nsub_one_pos hn)
  have hcalc : ((n : ℝ) - 1) * ((R + w) * du n) = 2 * π * (R + w) := by
    unfold du
    field_simp
    ring
  rw [hcalc] at hsum
  show 2 * ∑ j ∈ range (n - 1), ds R w n j ≤ 4 * π * (R + w)
  linarith

/-- Global lower bound: `edge_length ≥ 4 (R - w/2) (n-1) sin(π/(n-1))`. -/
lemma edge_ge {R w : ℝ} {n : ℕ} (hw : 0 ≤ w) (hn : 2 ≤ n) (hm : 0 ≤ R - w / 2) :
    4 * (R - w / 2) * ((n : ℝ) - 1) * Real.sin (π / ((n : ℝ) - 1))
      ≤ edge_length R w n := by
  have hsum : ((n : ℝ) - 1) * (2 * (R - w / 2) * Real.sin (π / ((n : ℝ) - 1)))
      ≤ ∑ j ∈ range (n - 1), ds R w n j := by
    calc ((n : ℝ) - 1) * (2 * (R - w / 2) * Real.sin (π / ((n : ℝ) - 1)))
        = (range (n - 1)).card • (2 * (R - w / 2) * Real.sin (π / ((n : ℝ) - 1))) := by
          rw [Finset.card_range, nsmul_eq_mul, nsub_one_cast hn]
      _ ≤ ∑ j ∈ range (n - 1), ds R w n j :=
          Finset.card_nsmul_le_sum _ _ _ (fun j _ => ds_ge hw hn hm j)
  show 4 * (R - w / 2) * ((n : ℝ) - 1) * Real.sin (π / ((n : ℝ) - 1))
    ≤ 2 * ∑ j ∈ range (n - 1), ds R w n j
  linarith

/-! ### Positivity and degeneracy at the corner of the grid -/

lemma ugrid_zero_col (n i : ℕ) : ugrid n i 0 = 0 := by
  rw [ugrid_eq]; simp

lemma ds_nonneg (R w : ℝ) (n j : ℕ) : 0 ≤ ds R w n j := Real.sqrt_nonneg _

lemma dA_nonneg (x y z : ℕ → ℕ → ℝ) (m i j : ℕ) : 0 ≤ dAOf x y z m i j :=
  Real.sqrt_nonneg _

/-- The corner `u`-gradient of the `z`-grid: a one-sided difference
worth `-(w/2)·sin(π/(n-1))`. -/
lemma zu_corner {R w : ℝ} {n : ℕ} (hn : 2 ≤ n) :
    gradAxis1 (zgrid R w n) n 0 0 = -(w / 2) * Real.sin (π / ((n : ℝ) - 1)) := by
  have h1 : zgrid R w n 0 1 = -(w / 2) * Real.sin (π / ((n : ℝ) - 1)) := by
    unfold zgrid
    rw [vgrid_eq, ugrid_eq]
    push_cast
    rw [show 2 * π * (1 : ℝ) / ((n : ℝ) - 1) / 2 = π / ((n : ℝ) - 1) by ring]
    ring
  have h0 : zgrid R w n 0 0 = 0 := by
    unfold zgrid
    rw [ugrid_eq]
    norm_num
  show zgrid R w n 0 1 - zgrid R w n 0 0 = -(w / 2) * Real.sin (π / ((n : ℝ) - 1))
  rw [h1, h0]
  ring

/-- The corner `v`-gradient of the `x`-grid equals `dv` (the embedding
has unit speed in the width direction, and `u = 0` there). -/
lemma xv_corner {R w : ℝ} {n : ℕ} (hn : 2 ≤ n) :
    gradAxis0 (xgrid R w n) n 0 0 = dv w n := by
  rw [xv_eq hn 0 0, ugrid_zero_col]
  norm_num

lemma zv_corner {R w : ℝ} {n : ℕ} (hn : 2 ≤ n) :
    gradAxis0 (zgrid R w n) n 0 0 = 0 := by
  rw [zv_eq hn 0 0, ugrid_zero_col]
  norm_num

lemma sin_div_pred_pos {n : ℕ} (hn3 : 3 ≤ n) : 0 < Real.sin (π / ((n : ℝ) - 1)) := by
  have hn : 2 ≤ n := by omega
  have hp := nsub_one_pos hn
  apply Real.sin_pos_of_pos_of_lt_pi
  · positivity
  · have h3 : (3 : ℝ) ≤ (n : ℝ) := by exact_mod_cast hn3
    have h1 : (1 : ℝ) < (n : ℝ) - 1 := by linarith
    exact div_lt_self Real.pi_pos h1

/-- At the corner of the grid the cross product does not vanish, so
`dA[0][0] > 0` for every `n ≥ 3` and `w > 0`. -/
lemma dA_corner_pos {R w : ℝ} {n : ℕ} (hw : 0 < w) (hn3 : 3 ≤ n) :
    0 < dAOf (xgrid R w n) (ygrid R w n) (zgrid R w n) n 0 0 := by
  have hn : 2 ≤ n := by omega
  have hsin := sin_div_pred_pos hn3
  have hdv := dv_pos hw hn
  have hcy : gradAxis1 (zgrid R w n) n 0 0 * gradAxis0 (xgrid R w n) n 0 0
      - gradAxis1 (xgrid R w n) n 0 0 * gradAxis0 (zgrid R w n) n 0 0
      = -(w / 2) * Real.sin (π / ((n : ℝ) - 1)) * dv w n := by
    rw [zu_corner hn, xv_corner hn, zv_corner hn]
    ring
  unfold dAOf
  apply Real.sqrt_pos.mpr
  rw [hcy]
  have h2 : 0 < (-(w / 2) * Real.sin (π / ((n : ℝ) - 1)) * dv w n) ^ 2 := by
    rw [show (-(w / 2) * Real.sin (π / ((n : ℝ) - 1)) * dv w n) ^ 2
      = (w / 2 * Real.sin (π / ((n : ℝ) - 1)) * dv w n) ^ 2 by ring]
    positivity
  nlinarith [sq_nonneg (gradAxis1 (ygrid R w n) n 0 0 * gradAxis0 (zgrid R w n) n 0 0
      - gradAxis1 (zgrid R w n) n 0 0 * gradAxis0 (ygrid R w n) n 0 0),
    sq_nonneg (gradAxis1 (xgrid R w n) n 0 0 * gradAxis0 (ygrid R w n) n 0 0
      - gradAxis1 (ygrid R w n) n 0 0 * gradAxis0 (xgrid R w n) n 0 0)]

/-- Strict positivity of `surface_area` for `n ≥ 3` (any `R`). -/
lemma surface_pos {R w : ℝ} {n : ℕ} (hw : 0 < w) (hn3 : 3 ≤ n) :
    0 < surface_area R w n := by
  have hn : 2 ≤ n := by omega
  have hd := dA_corner_pos (R := R) hw hn3
  have h1 : dAOf (xgrid R w n) (ygrid R w n) (zgrid R w n) n 0 0
      ≤ ∑ j ∈ range n, dAOf (xgrid R w n) (ygrid R w n) (zgrid R w n) n 0 j :=
    Finset.single_le_sum
      (fun j _ => dA_nonneg (xgrid R w n) (ygrid R w n) (zgrid R w n) n 0 j)
      (show (0 : ℕ) ∈ range n from Finset.mem_range.mpr (by omega))
  have h2 : (∑ j ∈ range n, dAOf (xgrid R w n) (ygrid R w n) (zgrid R w n) n 0 j)
      ≤ ∑ i ∈ range n, ∑ j ∈ range n, dAOf (xgrid R w n) (ygrid R w n) (zgrid R w n) n i j :=
    Finset.single_le_sum
      (fun i _ => Finset.sum_nonneg fun j _ =>
        dA_nonneg (xgrid R w n) (ygrid R w n) (zgrid R w n) n i j)
      (show (0 : ℕ) ∈ range n from Finset.mem_range.mpr (by omega))
  have hsum : 0 < ∑ i ∈ range n, ∑ j ∈ range n,
      dAOf (xgrid R w n) (ygrid R w n) (zgrid R w n) n i j := by linarith
  show 0 < (∑ i ∈ range n, ∑ j ∈ range n,
    dAOf (xgrid R w n) (ygrid R w n) (zgrid R w n) n i j) * du n * dv w n
  exact mul_pos (mul_pos hsum (du_pos hn)) (dv_pos hw hn)

lemma eu_one {n : ℕ} : eu n 1 = 2 * π / ((n : ℝ) - 1) := by
  rw [eu_eq]; push_cast; ring

/-- The first chord of the boundary resampling is strictly positive:
for `n = 2` the endpoints differ by `w` in `x`; for `n ≥ 3` they differ
in `z`. -/
lemma ds_zero_pos {R w : ℝ} {n : ℕ} (hw : 0 < w) (hn : 2 ≤ n) : 0 < ds R w n 0 := by
  rcases eq_or_lt_of_le hn with heq | hlt
  · -- n = 2
    have hn2 : n = 2 := heq.symm
    subst hn2
    have hL : eu 2 1 = 2 * π := by
      rw [eu_one]; norm_num
    have hx1 : ex R w 2 1 = R - w / 2 := by
      unfold ex
      rw [hL, show (2 : ℝ) * π / 2 = π by ring, Real.cos_pi, Real.cos_two_pi]
      ring
    have hx0 : ex R w 2 0 = R + w / 2 := by
      unfold ex
      rw [eu_zero]
      norm_num
    unfold ds
    apply Real.sqrt_pos.mpr
    have hdx : ex R w 2 (0 + 1) - ex R w 2 0 = -w := by
      rw [show (0 : ℕ) + 1 = 1 by norm_num, hx1, hx0]; ring
    rw [hdx]
    have hsq : 0 < (-w) ^ 2 := by
      rw [show ((-w) : ℝ) ^ 2 = w ^ 2 by ring]
      positivity
    nlinarith [sq_nonneg (ey R w 2 (0 + 1) - ey R w 2 0), sq_nonneg (ez R w 2 (0 + 1) - ez R w 2 0)]
  · -- n ≥ 3
    have hn3 : 3 ≤ n := hlt
    have hz1 : ez R w n 1 = w / 2 * Real.sin (π / ((n : ℝ) - 1)) := by
      unfold ez
      rw [eu_one, show 2 * π / ((n : ℝ) - 1) / 2 = π / ((n : ℝ) - 1) by ring]
    have hz0 : ez R w n 0 = 0 := by
      unfold ez
      rw [eu_zero]
      norm_num
    unfold ds
    apply Real.sqrt_pos.mpr
    have hdz : ez R w n (0 + 1) - ez R w n 0 = w / 2 * Real.sin (π / ((n : ℝ) - 1)) := by
      rw [show (0 : ℕ) + 1 = 1 by norm_num, hz1, hz0]; ring
    rw [hdz]
    have hsq : 0 < (w / 2 * Real.sin (π / ((n : ℝ) - 1))) ^ 2 := by
      have := sin_div_pred_pos hn3
      positivity
    nlinarith [sq_nonneg (ex R w n (0 + 1) - ex R w n 0), sq_nonneg (ey R w n (0 + 1) - ey R w n 0)]

/-- Strict positivity of `edge_length` for every `n ≥ 2`, `w > 0`. -/
lemma edge_pos {R w : ℝ} {n : ℕ} (hw : 0 < w) (hn : 2 ≤ n) : 0 < edge_length R w n := by
  have h0 := ds_zero_pos (R := R) hw hn
  have hsum : ds R w n 0 ≤ ∑ j ∈ range (n - 1), ds R w n j :=
    Finset.single_le_sum (fun j _ => ds_nonneg R w n j) (mem_range.mpr (by omega))
  show 0 < 2 * ∑ j ∈ range (n - 1), ds R w n j
  linarith

/-! ### The degenerate grid at `n = 2` -/

lemma npGradient1_zero_fun (m k : ℕ) : npGradient1 (fun _ => (0 : ℝ)) m k = 0 := by
  unfold npGradient1
  split_ifs <;> norm_num

lemma ygrid_two (R w : ℝ) (i j : ℕ) : ygrid R w 2 i j = 0 := by
  unfold ygrid
  rw [ugrid_eq]
  have harg : 2 * π * (j : ℝ) / (((2 : ℕ) : ℝ) - 1) = ((2 * j : ℕ) : ℝ) * π := by
    push_cast; ring
  rw [harg, Real.sin_nat_mul_pi, mul_zero]

lemma zgrid_two (R w : ℝ) (i j : ℕ) : zgrid R w 2 i j = 0 := by
  unfold zgrid
  rw [ugrid_eq]
  have harg : 2 * π * (j : ℝ) / (((2 : ℕ) : ℝ) - 1) / 2 = ((j : ℕ) : ℝ) * π := by
    push_cast; ring
  rw [harg, Real.sin_nat_mul_pi, mul_zero]

/-- At `n = 2` the whole sampled grid lies on the x-axis, so every
cross product vanishes. -/
lemma dA_two_zero (R w : ℝ) (i j : ℕ) :
    dAOf (xgrid R w 2) (ygrid R w 2) (zgrid R w 2) 2 i j = 0 := by
  have hyfun : ∀ t : ℕ, (fun k => ygrid R w 2 t k) = fun _ => (0 : ℝ) :=
    fun t => funext fun k => ygrid_two R w t k
  have hyfun0 : ∀ t : ℕ, (fun k => ygrid R w 2 k t) = fun _ => (0 : ℝ) :=
    fun t => funext fun k => ygrid_two R w k t
  have hzfun : ∀ t : ℕ, (fun k => zgrid R w 2 t k) = fun _ => (0 : ℝ) :=
    fun t => funext fun k => zgrid_two R w t k
  have hzfun0 : ∀ t : ℕ, (fun k => zgrid R w 2 k t) = fun _ => (0 : ℝ) :=
    fun t => funext fun k => zgrid_two R w k t
  have hyu : gradAxis1 (ygrid R w 2) 2 i j = 0 := by
    unfold gradAxis1; rw [hyfun i]; exact npGradient1_zero_fun 2 j
  have hyv : gradAxis0 (ygrid R w 2) 2 i j = 0 := by
    unfold gradAxis0; rw [hyfun0 j]; exact npGradient1_zero_fun 2 i
  have hzu : gradAxis1 (zgrid R w 2) 2 i j = 0 := by
    unfold gradAxis1; rw [hzfun i]; exact npGradient1_zero_fun 2 j
  have hzv : gradAxis0 (zgrid R w 2) 2 i j = 0 := by
    unfold gradAxis0; rw [hzfun0 j]; exact npGradient1_zero_fun 2 i
  unfold dAOf
  rw [hyu, hyv, hzu, hzv]
  simp

/-! ### Claim C6 -/

/-- Counterexample to claim C6: at `R = 1, w = 1, n = 2` (valid inputs
with `R > 0`, `w > 0`, `n ≥ 2`) the code returns `surface_area() = 0`,
which is not strictly positive: at `n = 2` the angle samples are `0`
and `2π`, the grid degenerates onto the x-axis and every cross product
vanishes. -/
theorem c6_counterexample :
    surface_area 1 1 2 = 0 ∧ ¬ (0 < surface_area 1 1 2) := by
  have h : surface_area 1 1 2 = 0 := by
    show (∑ i ∈ range 2, ∑ j ∈ range 2,
      dAOf (xgrid 1 1 2) (ygrid 1 1 2) (zgrid 1 1 2) 2 i j) * du 2 * dv 1 2 = 0
    have hs : (∑ i ∈ range 2, ∑ j ∈ range 2,
        dAOf (xgrid 1 1 2) (ygrid 1 1 2) (zgrid 1 1 2) 2 i j) = 0 :=
      Finset.sum_eq_zero fun i _ => Finset.sum_eq_zero fun j _ => dA_two_zero 1 1 i j
    rw [hs, zero_mul, zero_mul]
  exact ⟨h, by rw [h]; exact lt_irrefl 0⟩

/-- Claim C6, amended: for all `R > 0`, `w > 0`, `n ≥ 2` both results
are finite reals and nonnegative; `edge_length()` is strictly positive,
and `surface_area()` is strictly positive whenever `n ≥ 3` (at `n = 2`
it is exactly `0`, see the counterexample). -/
theorem c6_amended (R w : ℝ) (n : ℕ) (hR : 0 < R) (hw : 0 < w) (hn : 2 ≤ n) :
    0 < edge_length R w n ∧ 0 ≤ surface_area R w n
      ∧ (3 ≤ n → 0 < surface_area R w n) :=
  ⟨edge_pos hw hn, surface_nonneg hw.le hn, fun hn3 => surface_pos hw hn3⟩

/-- Witness for the amended C6 at `R = 1, w = 1, n = 3`. -/
theorem c6_amended_witness :
    0 < edge_length 1 1 3 ∧ 0 ≤ surface_area 1 1 3
      ∧ (3 ≤ 3 → 0 < surface_area 1 1 3) :=
  c6_amended 1 1 3 (by norm_num) (by norm_num) (by norm_num)

/-! ### Scaling behaviour (claim C2) -/

lemma vgrid_scale (k w : ℝ) (n i j : ℕ) : vgrid (k * w) n i j = k * vgrid w n i j := by
  unfold vgrid linspace; ring

lemma xgrid_scale (k R w : ℝ) (n i j : ℕ) :
    xgrid (k * R) (k * w) n i j = k * xgrid R w n i j := by
  unfold xgrid; rw [vgrid_scale]; ring

lemma ygrid_scale (k R w : ℝ) (n i j : ℕ) :
    ygrid (k * R) (k * w) n i j = k * ygrid R w n i j := by
  unfold ygrid; rw [vgrid_scale]; ring

lemma zgrid_scale (k R w : ℝ) (n i j : ℕ) :
    zgrid (k * R) (k * w) n i j = k * zgrid R w n i j := by
  unfold zgrid; rw [vgrid_scale]; ring

lemma npGradient1_smul (k : ℝ) (g : ℕ → ℝ) (m j : ℕ) :
    npGradient1 (fun t => k * g t) m j = k * npGradient1 g m j := by
  unfold npGradient1
  split_ifs <;> ring

lemma gradAxis1_smul (k : ℝ) (f g : ℕ → ℕ → ℝ) (hfg : ∀ i j, f i j = k * g i j)
    (m i j : ℕ) : gradAxis1 f m i j = k * gradAxis1 g m i j := by
  unfold gradAxis1
  have hfun : (fun t => f i t) = fun t => k * g i t := funext fun t => hfg i t
  rw [hfun]
  exact npGradient1_smul k (fun t => g i t) m j

lemma gradAxis0_smul (k : ℝ) (f g : ℕ → ℕ → ℝ) (hfg : ∀ i j, f i j = k * g i j)
    (m i j : ℕ) : gradAxis0 f m i j = k * gradAxis0 g m i j := by
  unfold gradAxis0
  have hfun : (fun t => f t j) = fun t => k * g t j := funext fun t => hfg t j
  rw [hfun]
  exact npGradient1_smul k (fun t => g t j) m i

/-- Scaling `(R, w) ↦ (kR, kw)` scales every `dA` entry by `k²`: both
index-space tangent fields scale by `k`. -/
lemma dA_scale (k R w : ℝ) (n i j : ℕ) (hk : 0 ≤ k) :
    dAOf (xgrid (k * R) (k * w) n) (ygrid (k * R) (k * w) n) (zgrid (k * R) (k * w) n) n i j
      = k ^ 2 * dAOf (xgrid R w n) (ygrid R w n) (zgrid R w n) n i j := by
  unfold dAOf
  rw [gradAxis1_smul k _ _ (fun a b => xgrid_scale k R w n a b) n i j,
    gradAxis1_smul k _ _ (fun a b => ygrid_scale k R w n a b) n i j,
    gradAxis1_smul k _ _ (fun a b => zgrid_scale k R w n a b) n i j,
    gradAxis0_smul k _ _ (fun a b => xgrid_scale k R w n a b) n i j,
    gradAxis0_smul k _ _ (fun a b => ygrid_scale k R w n a b) n i j,
    gradAxis0_smul k _ _ (fun a b => zgrid_scale k R w n a b) n i j]
  have harg : (k * gradAxis1 (ygrid R w n) n i j * (k * gradAxis0 (zgrid R w n) n i j)
        - k * gradAxis1 (zgrid R w n) n i j * (k * gradAxis0 (ygrid R w n) n i j)) ^ 2
      + (k * gradAxis1 (zgrid R w n) n i j * (k * gradAxis0 (xgrid R w n) n i j)
        - k * gradAxis1 (xgrid R w n) n i j * (k * gradAxis0 (zgrid R w n) n i j)) ^ 2
      + (k * gradAxis1 (xgrid R w n) n i j * (k * gradAxis0 (ygrid R w n) n i j)
        - k * gradAxis1 (ygrid R w n) n i j * (k * gradAxis0 (xgrid R w n) n i j)) ^ 2
      = (k ^ 2) ^ 2 * ((gradAxis1 (ygrid R w n) n i j * gradAxis0 (zgrid R w n) n i j
        - gradAxis1 (zgrid R w n) n i j * gradAxis0 (ygrid R w n) n i j) ^ 2
      + (gradAxis1 (zgrid R w n) n i j * gradAxis0 (xgrid R w n) n i j
        - gradAxis1 (xgrid R w n) n i j * gradAxis0 (zgrid R w n) n i j) ^ 2
      + (gradAxis1 (xgrid R w n) n i j * gradAxis0 (ygrid R w n) n i j
        - gradAxis1 (ygrid R w n) n i j * gradAxis0 (xgrid R w n) n i j) ^ 2) := by
    ring
  rw [harg, Real.sqrt_mul (sq_nonneg (k ^ 2)), Real.sqrt_sq_eq_abs,
    abs_of_nonneg (sq_nonneg k)]

/-- Under `(R, w) ↦ (kR, kw)` the code's `surface_area` scales by `k³`,
not `k²`: the `Σ dA` factor scales by `k²` and the extra `dv` factor by
`k`. -/
lemma surface_scale (k R w : ℝ) (n : ℕ) (hk : 0 ≤ k) :
    surface_area (k * R) (k * w) n = k ^ 3 * surface_area R w n := by
  show (∑ i ∈ range n, ∑ j ∈ range n, dAOf (xgrid (k * R) (k * w) n)
      (ygrid (k * R) (k * w) n) (zgrid (k * R) (k * w) n) n i j) * du n * dv (k * w) n
    = k ^ 3 * ((∑ i ∈ range n, ∑ j ∈ range n,
      dAOf (xgrid R w n) (ygrid R w n) (zgrid R w n) n i j) * du n * dv w n)
  have hsum : (∑ i ∈ range n, ∑ j ∈ range n, dAOf (xgrid (k * R) (k * w) n)
      (ygrid (k * R) (k * w) n) (zgrid (k * R) (k * w) n) n i j)
      = k ^ 2 * ∑ i ∈ range n, ∑ j ∈ range n,
        dAOf (xgrid R w n) (ygrid R w n) (zgrid R w n) n i j := by
    rw [Finset.mul_sum]
    apply Finset.sum_congr rfl
    intro i _
    rw [Finset.mul_sum]
    apply Finset.sum_congr rfl
    intro j _
    exact dA_scale k R w n i j hk
  have hdv : dv (k * w) n = k * dv w n := by unfold dv; ring
  rw [hsum, hdv]
  ring

lemma ex_scale (k R w : ℝ) (n j : ℕ) : ex (k * R) (k * w) n j = k * ex R w n j := by
  unfold ex; ring

lemma ey_scale (k R w : ℝ) (n j : ℕ) : ey (k * R) (k * w) n j = k * ey R w n j := by
  unfold ey; ring

lemma ez_scale (k R w : ℝ) (n j : ℕ) : ez (k * R) (k * w) n j = k * ez R w n j := by
  unfold ez; ring

lemma ds_scale (k R w : ℝ) (n j : ℕ) (hk : 0 ≤ k) :
    ds (k * R) (k * w) n j = k * ds R w n j := by
  unfold ds
  rw [ex_scale, ex_scale, ey_scale, ey_scale, ez_scale, ez_scale]
  have harg : (k * ex R w n (j + 1) - k * ex R w n j) ^ 2
      + (k * ey R w n (j + 1) - k * ey R w n j) ^ 2
      + (k * ez R w n (j + 1) - k * ez R w n j) ^ 2
      = k ^ 2 * ((ex R w n (j + 1) - ex R w n j) ^ 2
      + (ey R w n (j + 1) - ey R w n j) ^ 2
      + (ez R w n (j + 1) - ez R w n j) ^ 2) := by ring
  rw [harg, Real.sqrt_mul (sq_nonneg k), Real.sqrt_sq_eq_abs, abs_of_nonneg hk]

lemma edge_scale (k R w : ℝ) (n : ℕ) (hk : 0 ≤ k) :
    edge_length (k * R) (k * w) n = k * edge_length R w n := by
  show 2 * (∑ j ∈ range (n - 1), ds (k * R) (k * w) n j)
    = k * (2 * ∑ j ∈ range (n - 1), ds R w n j)
  have hsum : (∑ j ∈ range (n - 1), ds (k * R) (k * w) n j)
      = k * ∑ j ∈ range (n - 1), ds R w n j := by
    rw [Finset.mul_sum]
    exact Finset.sum_congr rfl fun j _ => ds_scale k R w n j hk
  rw [hsum]
  ring

/-- Counterexample to claim C2: at `R = 1, w = 2, n = 3` with `k = 2`
the code's `surface_area` scales by `k³ = 8`, not `k² = 4`; the gap is
a factor of `2`, far beyond any stated numerical tolerance (the second
conjunct shows a violation of the `1%` relative-error bound). -/
theorem c2_counterexample :
    surface_area 2 4 3 ≠ 2 ^ 2 * surface_area 1 2 3
      ∧ (101 / 100 : ℝ) * (2 ^ 2 * surface_area 1 2 3) < surface_area 2 4 3 := by
  have hs : surface_area (2 * 1) (2 * 2) 3 = 2 ^ 3 * surface_area 1 2 3 :=
    surface_scale 2 1 2 3 (by norm_num)
  norm_num at hs
  have hpos : 0 < surface_area 1 2 3 := surface_pos (by norm_num) (by norm_num)
  constructor
  · rw [hs]
    intro h
    nlinarith
  · rw [hs]
    nlinarith

/-- Claim C2, amended: for every `k ≥ 0` and every `(R, w, n)`,
replacing `(R, w)` by `(kR, kw)` scales `edge_length()` by `k` exactly
(as claimed), but scales `surface_area()` by `k³`, not `k²`: the
index-space gradients already scale each `dA` by `k²`, and the extra
`dv` factor contributes another `k`. -/
theorem c2_amended_scaling (k R w : ℝ) (n : ℕ) (hk : 0 ≤ k) :
    surface_area (k * R) (k * w) n = k ^ 3 * surface_area R w n
      ∧ edge_length (k * R) (k * w) n = k * edge_length R w n :=
  ⟨surface_scale k R w n hk, edge_scale k R w n hk⟩

/-- Witness for the amended C2 at `k = 2, R = 1, w = 1, n = 2`. -/
theorem c2_amended_scaling_witness :
    surface_area (2 * 1) (2 * 1) 2 = 2 ^ 3 * surface_area 1 1 2
      ∧ edge_length (2 * 1) (2 * 1) 2 = 2 * edge_length 1 1 2 :=
  c2_amended_scaling 2 1 1 2 (by norm_num)

/-! ### The literal scenario `R = 1, w = 0.5, n = 200` (claim C1) -/

lemma surface_200_le : surface_area 1 (1 / 2) 200 ≤ 1 / 1000 := by
  have h := surface_le (R := 1) (w := 1 / 2) (n := 200)
    (by norm_num) (by norm_num) (by norm_num)
  have hdu : du 200 = 2 * π / 199 := by unfold du; norm_num
  have hdv : dv (1 / 2) 200 = 1 / 398 := by unfold dv; norm_num
  rw [hdu, hdv] at h
  push_cast at h
  have hK : Real.sqrt (2 * ((1 : ℝ) + 1 / 2) ^ 2 + 4 * (1 + 3 * (1 / 2) / 4) ^ 2)
      ≤ 7 / 2 := by
    have harg : 2 * ((1 : ℝ) + 1 / 2) ^ 2 + 4 * (1 + 3 * (1 / 2) / 4) ^ 2 = 193 / 16 := by
      norm_num
    rw [harg]
    calc Real.sqrt (193 / 16) ≤ Real.sqrt ((7 / 2) ^ 2) :=
          Real.sqrt_le_sqrt (by norm_num)
      _ = 7 / 2 := Real.sqrt_sq (by norm_num)
  have hmono : (200 : ℝ) ^ 2 * (2 * π / 199 * (1 / 398)) ^ 2
        * Real.sqrt (2 * ((1 : ℝ) + 1 / 2) ^ 2 + 4 * (1 + 3 * (1 / 2) / 4) ^ 2)
      ≤ (200 : ℝ) ^ 2 * (2 * π / 199 * (1 / 398)) ^ 2 * (7 / 2) :=
    mul_le_mul_of_nonneg_left hK (by positivity)
  have hexp : (200 : ℝ) ^ 2 * (2 * π / 199 * (1 / 398)) ^ 2 * (7 / 2)
      = (140000 / 1568239201) * π ^ 2 := by ring
  have hπ2 : π ^ 2 < 9.8697 := by
    nlinarith [Real.pi_lt_d6, Real.pi_gt_d6]
  have hnum : (200 : ℝ) ^ 2 * (2 * π / 199 * (1 / 398)) ^ 2 * (7 / 2) ≤ 1 / 1000 := by
    rw [hexp]
    nlinarith [hπ2]
  linarith

lemma sin_pi_div_199_gt : (0.0157859 : ℝ) < Real.sin (π / 199) := by
  have hlo : (3.141592 : ℝ) / 199 < π / 199 := by
    have := Real.pi_gt_d6
    linarith
  have hhi : π / 199 < (3.141593 : ℝ) / 199 := by
    have := Real.pi_lt_d6
    linarith
  have hpos : (0 : ℝ) < π / 199 := by positivity
  have hle1 : π / 199 ≤ 1 := by
    have := Real.pi_lt_d6
    linarith
  have hcube := Real.sin_gt_sub_cube hpos hle1
  have hx3 : (π / 199) ^ 3 < ((3.141593 : ℝ) / 199) ^ 3 := by
    exact pow_lt_pow_left₀ hhi hpos.le (by norm_num)
  have hnum : (0.0157859 : ℝ) < (3.141592 : ℝ) / 199 - ((3.141593 : ℝ) / 199) ^ 3 / 4 := by
    norm_num
  nlinarith [hcube, hx3, hlo]

lemma edge_200_ge : (47 / 5 : ℝ) ≤ edge_length 1 (1 / 2) 200 := by
  have h := edge_ge (R := 1) (w := 1 / 2) (n := 200)
    (by norm_num) (by norm_num) (by norm_num)
  have hcast : ((200 : ℕ) : ℝ) - 1 = 199 := by norm_num
  rw [hcast] at h
  have hsin := sin_pi_div_199_gt
  nlinarith [h, hsin]

lemma edge_200_le : edge_length 1 (1 / 2) 200 ≤ 189 / 10 := by
  have h := edge_le (R := 1) (w := 1 / 2) (n := 200)
    (by norm_num) (by norm_num) (by norm_num)
  nlinarith [Real.pi_lt_d6, h]

/-- Counterexample to claim C1: at `R = 1, w = 0.5, n = 200` the code's
`surface_area()` is below `3.0` (indeed below `0.001`: the index-space
gradients already carry one factor `du` resp. `dv` each, so the final
`* du * dv` shrinks the correct Riemann sum by roughly `du·dv ≈ 8e-5`)
and the code's `edge_length()` is above `6.5` (indeed above `9.4`: the
one-revolution chord sum is about `6.33` and the code doubles it).
Both conjuncts contradict the claimed ranges `[3.0, 3.6]` and
`[6.3, 6.5]`. -/
theorem c1_counterexample :
    surface_area 1 (1 / 2) 200 < 3 ∧ (13 / 2 : ℝ) < edge_length 1 (1 / 2) 200 := by
  constructor
  · have h := surface_200_le
    linarith
  · have h := edge_200_ge
    linarith

/-- Claim C1, amended: at `R = 1, w = 0.5, n = 200` the code returns
`surface_area()` in `[0, 0.001]` (the true strip area is about `3.17`,
but the double scaling by `du·dv` makes the returned value about
`2.5e-4`) and `edge_length()` in `[9.4, 18.9]` (about `12.66`: twice
the one-revolution boundary length). -/
theorem c1_amended :
    0 ≤ surface_area 1 (1 / 2) 200 ∧ surface_area 1 (1 / 2) 200 ≤ 1 / 1000
      ∧ (47 / 5 : ℝ) ≤ edge_length 1 (1 / 2) 200
      ∧ edge_length 1 (1 / 2) 200 ≤ 189 / 10 :=
  ⟨surface_nonneg (by norm_num) (by norm_num), surface_200_le, edge_200_ge, edge_200_le⟩

/-! ### Degenerate width (claim C7) -/

lemma ds_cont (R : ℝ) (n j : ℕ) : Continuous fun w : ℝ => ds R w n j := by
  unfold ds ex ey ez
  apply Continuous.sqrt
  fun_prop

lemma edge_cont (R : ℝ) (n : ℕ) : Continuous fun w : ℝ => edge_length R w n := by
  unfold edge_length
  apply Continuous.mul continuous_const
  exact continuous_finset_sum _ fun j _ => ds_cont R n j

/-- At `w = 0` every boundary chord is a chord of the circle of radius
`R`, of length `2R sin(π/(n-1))`. -/
lemma ds_at_zero {R : ℝ} {n : ℕ} (hR : 0 ≤ R) (hn : 2 ≤ n) (j : ℕ) :
    ds R 0 n j = 2 * R * Real.sin (π / ((n : ℝ) - 1)) := by
  have hx : ∀ t, ex R 0 n t = R * Real.cos (eu n t) := fun t => by unfold ex; norm_num
  have hy : ∀ t, ey R 0 n t = R * Real.sin (eu n t) := fun t => by unfold ey; norm_num
  have hz : ∀ t, ez R 0 n t = 0 := fun t => by unfold ez; norm_num
  have hab : eu n (j + 1) - eu n j = du n := eu_succ_sub n j
  have h1 : (Real.cos (eu n (j + 1)) - Real.cos (eu n j)) ^ 2
      + (Real.sin (eu n (j + 1)) - Real.sin (eu n j)) ^ 2
      = 4 * Real.sin (π / ((n : ℝ) - 1)) ^ 2 := by
    rw [chordsq (eu n j) (eu n (j + 1)), hab, two_sub_two_cos_eq, du_half]
  have hbig : (R * Real.cos (eu n (j + 1)) - R * Real.cos (eu n j)) ^ 2
      + (R * Real.sin (eu n (j + 1)) - R * Real.sin (eu n j)) ^ 2 + ((0 : ℝ) - 0) ^ 2
      = (2 * R * Real.sin (π / ((n : ℝ) - 1))) ^ 2 := by
    linear_combination R ^ 2 * h1
  unfold ds
  rw [hx, hx, hy, hy, hz, hz, hbig,
    Real.sqrt_sq (mul_nonneg (mul_nonneg (by norm_num) hR) (sin_du_half_nonneg hn))]

lemma edge_at_zero {R : ℝ} {n : ℕ} (hR : 0 ≤ R) (hn : 2 ≤ n) :
    edge_length R 0 n = 4 * R * ((n : ℝ) - 1) * Real.sin (π / ((n : ℝ) - 1)) := by
  show 2 * (∑ j ∈ range (n - 1), ds R 0 n j) = _
  rw [Finset.sum_congr rfl (fun j _ => ds_at_zero hR hn j), Finset.sum_const,
    Finset.card_range, nsmul_eq_mul, nsub_one_cast hn]
  ring

/-- As `w → 0⁺` the value of `edge_length` tends to the doubled chord
sum of the core circle: `4R(n-1)sin(π/(n-1))`. -/
lemma edge_tendsto (R : ℝ) (n : ℕ) (hR : 0 ≤ R) (hn : 2 ≤ n) :
    Tendsto (fun w => edge_length R w n) (nhdsWithin 0 (Set.Ioi 0))
      (nhds (4 * R * ((n : ℝ) - 1) * Real.sin (π / ((n : ℝ) - 1)))) := by
  have h := (edge_cont R n).tendsto 0
  have h0 : edge_length R 0 n = 4 * R * ((n : ℝ) - 1) * Real.sin (π / ((n : ℝ) - 1)) :=
    edge_at_zero hR hn
  rw [h0] at h
  exact h.mono_left nhdsWithin_le_nhds

/-- As `w → 0⁺` the value of `surface_area` tends to `0`, by the
squeeze `0 ≤ S ≤ n² (du·dv)² K(w)` with `dv → 0`. -/
lemma surface_tendsto_zero (R : ℝ) (n : ℕ) (hR : 0 ≤ R) (hn : 2 ≤ n) :
    Tendsto (fun w => surface_area R w n) (nhdsWithin 0 (Set.Ioi 0)) (nhds 0) := by
  have hg : Tendsto (fun w : ℝ => (n : ℝ) ^ 2 * (du n * dv w n) ^ 2
      * Real.sqrt (2 * (R + w) ^ 2 + 4 * (R + 3 * w / 4) ^ 2))
      (nhdsWithin 0 (Set.Ioi 0)) (nhds 0) := by
    have hcont : Continuous fun w : ℝ => (n : ℝ) ^ 2 * (du n * dv w n) ^ 2
        * Real.sqrt (2 * (R + w) ^ 2 + 4 * (R + 3 * w / 4) ^ 2) := by
      apply Continuous.mul
      · unfold dv
        fun_prop
      · apply Continuous.sqrt
        fun_prop
    have h := hcont.tendsto 0
    have h0 : (n : ℝ) ^ 2 * (du n * dv 0 n) ^ 2
        * Real.sqrt (2 * (R + 0) ^ 2 + 4 * (R + 3 * 0 / 4) ^ 2) = 0 := by
      unfold dv
      norm_num
    rw [h0] at h
    exact h.mono_left nhdsWithin_le_nhds
  exact squeeze_zero'
    (eventually_nhdsWithin_of_forall fun w hw => surface_nonneg (Set.mem_Ioi.mp hw).le hn)
    (eventually_nhdsWithin_of_forall fun w hw => surface_le hR (Set.mem_Ioi.mp hw).le hn)
    hg

/-- Counterexample to claim C7: the claim asserts the limit for every
fixed `n ≥ 2`, but at `n = 2` the boundary resampling degenerates (its
two samples are `u = 0` and `u = 2π`, which coincide at `w = 0`), so
`edge_length` tends to `0`, not to `2·2πR = 4π ≈ 12.57` — no
reasonable reading of "approximately" covers this. -/
theorem c7_counterexample :
    ¬ Tendsto (fun w => edge_length 1 w 2) (nhdsWithin 0 (Set.Ioi 0))
      (nhds (2 * (2 * π * 1))) := by
  intro hcon
  have h0 := edge_tendsto 1 2 (by norm_num) (by norm_num)
  have hval : 4 * 1 * (((2 : ℕ) : ℝ) - 1) * Real.sin (π / (((2 : ℕ) : ℝ) - 1)) = 0 := by
    norm_num [Real.sin_pi]
  rw [hval] at h0
  have huniq := tendsto_nhds_unique hcon h0
  nlinarith [Real.pi_pos, huniq]

/-- Claim C7, amended: for fixed `R > 0` and `n ≥ 2`, as `w → 0⁺` the
code's `surface_area()` tends to `0` (as claimed) and `edge_length()`
tends to `4R(n-1)sin(π/(n-1))`, the doubled inscribed-polygon length of
the core circle.  This limit equals `2·2πR` only in the `n → ∞` limit;
at `n = 2` it is `0`, so the claimed limit `2·2πR` does not hold for
every fixed `n ≥ 2`. -/
theorem c7_amended (R : ℝ) (n : ℕ) (hR : 0 < R) (hn : 2 ≤ n) :
    Tendsto (fun w => surface_area R w n) (nhdsWithin 0 (Set.Ioi 0)) (nhds 0)
      ∧ Tendsto (fun w => edge_length R w n) (nhdsWithin 0 (Set.Ioi 0))
        (nhds (4 * R * ((n : ℝ) - 1) * Real.sin (π / ((n : ℝ) - 1)))) :=
  ⟨surface_tendsto_zero R n hR.le hn, edge_tendsto R n hR.le hn⟩

/-- Witness for the amended C7 at `R = 1, n = 3`. -/
theorem c7_amended_witness :
    Tendsto (fun w => surface_area 1 w 3) (nhdsWithin 0 (Set.Ioi 0)) (nhds 0)
      ∧ Tendsto (fun w => edge_length 1 w 3) (nhdsWithin 0 (Set.Ioi 0))
        (nhds (4 * 1 * (((3 : ℕ) : ℝ) - 1) * Real.sin (π / (((3 : ℕ) : ℝ) - 1)))) :=
  c7_amended 1 3 (by norm_num) (by norm_num)

end Mobius
